import Mathlib

/-!
Verification of the music synthesizer core (parser, music-theory layer,
event compiler, sequencer callback) against its specification.

The C sources are shallowly embedded: machine integers become `Int`/`Nat`
with explicit wrapping where the C code can wrap, NUL-terminated strings
become `List Char` (the end of the list plays the role of the NUL byte),
and the parsing functions thread the remaining input explicitly instead of
mutating a `const char**` cursor.  Floating-point computations that feed
into integer results are either modelled exactly (IEEE-754 binary32
rounding on rationals, used for the chord-volume path) or are abstracted
into parameters of the embedding when no claim depends on their value
(frequency computation via `pow`, the `0.9` articulation factor, the
tuplet scaling, the sine table and the ADSR release coefficient, all of
which use `double` transcendental functions).
-/

namespace Music

/-- Wrap an integer to the range of C `int8_t` (two's complement). -/
def i8 (x : ℤ) : ℤ := (x + 128) % 256 - 128

/-- Wrap an integer to the range of C `int16_t` (two's complement). -/
def i16 (x : ℤ) : ℤ := (x + 32768) % 65536 - 32768

/-- Wrap an integer to the range of C `int32_t` (two's complement). -/
def i32 (x : ℤ) : ℤ := (x + 2147483648) % 4294967296 - 2147483648

/-- Wrap an integer to the range of C `uint32_t`. -/
def u32 (x : ℤ) : ℤ := x % 4294967296

/-- Wrap an integer to the range of C `int16_t`; used for the final PCM cast. -/
def i16cast (x : ℤ) : ℤ := i16 x

/-- C `isspace` for the default locale restricted to ASCII, as used by the parser. -/
def isSpaceC (c : Char) : Bool :=
  c = ' ' || c = '\t' || c = '\n' || c = '\x0b' || c = '\x0c' || c = '\r'

/-- C `isdigit`. -/
def isDigitC (c : Char) : Bool := '0' ≤ c && c ≤ '9'

/-- The source's `is_valid_note_name`: a pitch letter a..g or the rest marker r. -/
def isValidNoteName (c : Char) : Bool := ('a' ≤ c && c ≤ 'g') || c = 'r'

/-- ASCII lower-casing, as `strcasecmp` does per character. -/
def toLowerC (c : Char) : Char :=
  if 'A' ≤ c ∧ c ≤ 'Z' then Char.ofNat (c.toNat + 32) else c

/-- Case-insensitive string equality, modelling C `strcasecmp` returning 0. -/
def eqCaseInsensitive (a b : List Char) : Bool :=
  a.map toLowerC = b.map toLowerC

/-- Envelope function pointers in the source are one of exactly two
functions (`adsr_envelope`, `pluck_envelope`); pointer comparison against
them is modelled by this tag. -/
inductive EnvKind where
  | adsr
  | pluck
deriving DecidableEq, Repr

/-- The C `instrument_t`: envelope function, partial count and the two
float setup arrays.  The float literals are represented by their exact
IEEE-754 binary32 values. -/
structure Instrument where
  envelope : EnvKind
  numPartials : ℕ
  harmonicRatios : List ℚ
  partialAmplitudes : List ℚ
deriving DecidableEq, Repr

/-- A value of type `const instrument_t*`: either the null pointer (the
`{0}` initializer) or the address of one of the three instrument globals
of the program.  The parser and compiler only ever store addresses of
these constants or null. -/
inductive InstrRef where
  | nullInstr
  | adsrInstr
  | pluckSine
  | pluckSquare
deriving DecidableEq, Repr

/-- Contents of `adsr_instrument`. -/
def adsrInstrument : Instrument :=
  { envelope := .adsr, numPartials := 1, harmonicRatios := [1], partialAmplitudes := [1] }

/-- Contents of `pluck_sine_instrument` (ADSR envelope, single unit partial). -/
def pluckSineInstrument : Instrument :=
  { envelope := .adsr, numPartials := 1, harmonicRatios := [1], partialAmplitudes := [1] }

/-- Contents of `pluck_square_instrument`: three partials at harmonic
positions 1, 3, 5; the amplitudes are the binary32 values of the literals
`1.0f`, `0.333f`, `0.2f`. -/
def pluckSquareInstrument : Instrument :=
  { envelope := .pluck, numPartials := 3, harmonicRatios := [1, 3, 5],
    partialAmplitudes := [1, 5586813 / 16777216, 13421773 / 67108864] }

/-- Dereference an instrument pointer; `none` is the null pointer, which
the runtime code guards against before every dereference. -/
def instrDef : InstrRef → Option Instrument
  | .nullInstr => none
  | .adsrInstr => some adsrInstrument
  | .pluckSine => some pluckSineInstrument
  | .pluckSquare => some pluckSquareInstrument

/-- The source's `lookup_instrument`: case-insensitive scan of the
registry; unknown or missing names fall back to `pluck_sine_instrument`. -/
def lookupInstrument (name : List Char) : InstrRef :=
  if eqCaseInsensitive name ('p' :: 'l' :: 'u' :: 'c' :: 'k' :: ' ' :: 's' :: 'i' :: 'n' :: 'e' :: []) then
    .pluckSine
  else if eqCaseInsensitive name ('p' :: 'l' :: 'u' :: 'c' :: 'k' :: ' ' :: 's' :: 'q' :: 'u' :: 'a' :: 'r' :: 'e' :: []) then
    .pluckSquare
  else
    .pluckSine

/-- The C `note_t`.  Numeric fields keep their C width via explicit
wrapping at the points where the parser stores into them. -/
structure Note where
  noteName : Char
  accidental : ℤ
  octaveShift : ℤ
  value : ℤ
  dotted : Bool
  tuplet : ℤ
  chordId : ℤ
  instrument : InstrRef
deriving DecidableEq, Repr

/-- The all-zero `note_t` produced by `note_t note = {0}`: null instrument
pointer, NUL note name. -/
def emptyNote : Note :=
  { noteName := Char.ofNat 0, accidental := 0, octaveShift := 0, value := 0,
    dotted := false, tuplet := 0, chordId := 0, instrument := .nullInstr }

/-- The NUL character, the C string terminator and the `note_name` of a
failed parse. -/
def nulChar : Char := Char.ofNat 0

/-- The octave-up mark, an ASCII apostrophe. -/
def octUpChar : Char := Char.ofNat 39

/-- Skip leading whitespace, as every `while (*p && isspace(*p)) p++` loop does. -/
def skipWs (l : List Char) : List Char := l.dropWhile isSpaceC

/-- Accidental marks: sharp `s` and flat `f`. -/
def isAccChar (c : Char) : Bool := c = 's' || c = 'f'

/-- Octave marks: apostrophe (up) and comma (down). -/
def isOctChar (c : Char) : Bool := c = octUpChar || c = ','

/-- Contribution of one accidental mark. -/
def accDelta (c : Char) : ℤ := if c = 's' then 1 else if c = 'f' then -1 else 0

/-- Sum of accidental marks; the iterated `int8_t` increments of the C
loop equal the `i8`-wrap of this sum. -/
def accSum (l : List Char) : ℤ := (l.map accDelta).sum

/-- Contribution of one octave mark. -/
def octDelta (c : Char) : ℤ := if c = octUpChar then 1 else if c = ',' then -1 else 0

/-- Sum of octave marks. -/
def octSum (l : List Char) : ℤ := (l.map octDelta).sum

/-- Value of a digit string, as accumulated by `duration = duration * 10 + (*p - '0')`.
The C `int` accumulator can only overflow on inputs long enough to trigger
undefined behaviour; the model keeps the mathematical value. -/
def digitVal (l : List Char) : ℤ := l.foldl (fun a c => a * 10 + ((c.toNat : ℤ) - 48)) 0

/-- The duration validation of the parser: a power of two from 1 to 128. -/
def isValidDuration (d : ℤ) : Bool :=
  d = 1 || d = 2 || d = 4 || d = 8 || d = 16 || d = 32 || d = 64 || d = 128

/-- Tuplet marker characters. -/
def isTupletChar (c : Char) : Bool := c = 't' || c = 'q' || c = 'x' || c = 's' || c = 'n'

/-- Tuplet code assigned to each marker. -/
def tupletOf (c : Char) : ℤ :=
  if c = 't' then 3 else if c = 'q' then 5 else if c = 'x' then 6
  else if c = 's' then 7 else if c = 'n' then 9 else 0

/-- Consume a single optional dot. -/
def scanDot : List Char → Bool × List Char
  | '.' :: l => (true, l)
  | l => (false, l)

/-- Consume a single optional tuplet marker. -/
def scanTuplet : List Char → ℤ × List Char
  | [] => (0, [])
  | c :: l => if isTupletChar c then (tupletOf c, l) else (0, c :: l)

/-- Result of `parse_note`: the note, the updated cursor (remaining
input), and the updated `last_duration`. -/
structure ParseNoteRes where
  note : Note
  rest : List Char
  ld : ℤ
deriving DecidableEq, Repr

/-- Dot and tuplet parsing shared by the tail of `parse_note`. -/
def parseNoteTail (ld : ℤ) (note : Note) (l : List Char) : ParseNoteRes :=
  let dr := scanDot l
  let tr := scanTuplet dr.2
  ⟨{ note with dotted := dr.1, tuplet := tr.1 }, tr.2, ld⟩

/-- The `parse_duration:` label of `parse_note`: an invalid numeric
literal drops the whole note and leaves the cursor at `orig` (the C code
returns without writing `*input_pos`) and `last_duration` untouched. -/
def parseNoteDur (orig : List Char) (ld : ℤ) (note : Note) (l : List Char) : ParseNoteRes :=
  let ds := l.takeWhile isDigitC
  if ds = [] then parseNoteTail ld note l
  else
    let d := digitVal ds
    if isValidDuration d then
      parseNoteTail d { note with value := i8 d } (l.dropWhile isDigitC)
    else ⟨emptyNote, orig, ld⟩

/-- The source's `parse_note`.  On an invalid note name the cursor is not
updated (the function returns before `*input_pos = p`), so `rest` is the
whole original input including its leading whitespace. -/
def parseNote (input : List Char) (ld : ℤ) : ParseNoteRes :=
  let base : Note := { emptyNote with value := i8 ld }
  match skipWs input with
  | [] => ⟨base, skipWs input, ld⟩
  | c :: l2 =>
    if c = 'r' then
      parseNoteDur input ld { base with noteName := 'r' } l2
    else if isValidNoteName c then
      let accs := l2.takeWhile isAccChar
      let l3 := l2.dropWhile isAccChar
      let octs := l3.takeWhile isOctChar
      let l4 := l3.dropWhile isOctChar
      parseNoteDur input ld
        { base with noteName := c, accidental := i8 (accSum accs), octaveShift := i8 (octSum octs) } l4
    else ⟨base, input, ld⟩

/-- The source's `parse_note_without_duration`.  Unlike `parse_note` it
always writes the cursor back, including on failure. -/
def parseNoteWithoutDur (input : List Char) : Note × List Char :=
  match skipWs input with
  | [] => (emptyNote, skipWs input)
  | c :: l2 =>
    if c = 'r' then ({ emptyNote with noteName := 'r' }, l2)
    else if isValidNoteName c then
      let accs := l2.takeWhile isAccChar
      let l3 := l2.dropWhile isAccChar
      let octs := l3.takeWhile isOctChar
      let l4 := l3.dropWhile isOctChar
      ({ emptyNote with noteName := c, accidental := i8 (accSum accs), octaveShift := i8 (octSum octs) }, l4)
    else (emptyNote, skipWs input)

/-- Result of `parse_duration_and_modifiers`. -/
structure DurMods where
  value : ℤ
  dotted : Bool
  tuplet : ℤ
  rest : List Char
  ld : ℤ
deriving DecidableEq, Repr

/-- The source's `parse_duration_and_modifiers`.  An invalid numeric
literal here keeps the previous duration instead of failing. -/
def parseDurationMods (l : List Char) (ld : ℤ) : DurMods :=
  let ds := l.takeWhile isDigitC
  let l2 := l.dropWhile isDigitC
  let dv : ℤ × ℤ :=
    if ds = [] then (ld, ld)
    else
      let d := digitVal ds
      if isValidDuration d then (d, d) else (ld, ld)
  let dr := scanDot l2
  let tr := scanTuplet dr.2
  ⟨dv.1, dr.1, tr.1, tr.2, dv.2⟩

/-- Write the shared duration, dot and tuplet of a chord into one member,
as the final loop of `parse_duration_and_modifiers` does. -/
def applyDurMods (m : DurMods) (n : Note) : Note :=
  { n with value := i8 m.value, dotted := m.dotted, tuplet := m.tuplet }

/-- The note-collecting loop of `parse_chord` (`while (*p && *p != '>')`
with the `MAX_CHORD_SIZE` bound of 8).  Every successful iteration
consumes at least one character, so any fuel above the input length is
inert; fuel 0 is a sentinel never reached from `parseChord`. -/
def chordLoop : ℕ → List Char → ℕ → List Note × List Char
  | 0, l, _ => ([], l)
  | fuel + 1, l, size =>
    match l with
    | [] => ([], [])
    | c :: _ =>
      if c = '>' then ([], l)
      else if 8 ≤ size then ([], l)
      else
        let nr := parseNoteWithoutDur l
        if nr.1.noteName = nulChar then ([], nr.2)
        else
          let rec2 := chordLoop fuel (skipWs nr.2) (size + 1)
          (nr.1 :: rec2.1, rec2.2)

/-- The source's `parse_chord`: `none` models the NULL return (cursor not
at `<` after whitespace); otherwise the collected members with the shared
duration and modifiers applied, the updated cursor and `last_duration`. -/
def parseChord (input : List Char) (ld : ℤ) : Option (List Note × List Char × ℤ) :=
  match skipWs input with
  | '<' :: l2 =>
    let lp := chordLoop (l2.length + 1) l2 0
    let l3 := match lp.2 with
      | '>' :: l4 => l4
      | l4 => l4
    if lp.1 = [] then some ([], l3, ld)
    else
      let m := parseDurationMods l3 ld
      some (lp.1.map (applyDurMods m), m.rest, m.ld)
  | _ => none

/-- The mutable locals of `parse_music` that persist across loop
iterations: `last_duration`, `chord_counter` and `current_instrument`. -/
structure RunSt where
  ld : ℤ
  chordCounter : ℤ
  instr : InstrRef
deriving DecidableEq, Repr

/-- Outcome of running the `parse_music` loop from some point on: the
notes pushed from here, the remaining input when the loop stopped, and
whether it stopped through the failure `break` (an unparseable token)
rather than by reaching the end of the input. -/
structure RunRes where
  notes : List Note
  rest : List Char
  broke : Bool
deriving DecidableEq, Repr

/-- The main loop of `parse_music`.  Every iteration that recurses
consumes at least one character, so any fuel above the input length is
inert; fuel 0 is a sentinel never reached from `parseMusic`. -/
def parseMusicRun : ℕ → List Char → RunSt → RunRes
  | 0, l, _ => ⟨[], l, true⟩
  | fuel + 1, l, st =>
    match skipWs l with
    | [] => ⟨[], skipWs l, false⟩
    | c :: l2 =>
      if c = '[' then
        let nm := (l2.takeWhile (fun d => d ≠ ']')).take 31
        let l3 := l2.drop nm.length
        match l3 with
        | ']' :: l4 => parseMusicRun fuel l4 { st with instr := lookupInstrument nm }
        | _ => parseMusicRun fuel l3 st
      else if c = '<' then
        match parseChord (c :: l2) st.ld with
        | some (cns, l3, ld2) =>
          if cns = [] then
            parseMusicRun fuel l3 { st with ld := ld2 }
          else
            let tagged := cns.map fun n =>
              { n with chordId := i16 st.chordCounter, instrument := st.instr }
            let r := parseMusicRun fuel l3
              { st with ld := ld2, chordCounter := st.chordCounter + 1 }
            ⟨tagged ++ r.notes, r.rest, r.broke⟩
        | none => ⟨[], c :: l2, true⟩
      else
        let pr := parseNote (c :: l2) st.ld
        if pr.note.noteName = nulChar then ⟨[], c :: l2, true⟩
        else
          let n := { pr.note with instrument := st.instr, chordId := 0 }
          let r := parseMusicRun fuel pr.rest { st with ld := pr.ld }
          ⟨n :: r.notes, r.rest, r.broke⟩

/-- The initial parser state: `last_duration = 4`, `chord_counter = 1`,
`current_instrument = &pluck_sine_instrument`. -/
def initRunSt : RunSt := ⟨4, 1, .pluckSine⟩

/-- Run the `parse_music` loop on a whole input. -/
def parseMusicR (input : List Char) : RunRes :=
  parseMusicRun (input.length + 1) input initRunSt

/-- The source's `parse_music`: the note array it returns. -/
def parseMusic (input : List Char) : List Note := (parseMusicR input).notes

/-- The C `key_signature_t` contents: per-letter accidentals in the order
C, D, E, F, G, A, B.  The display name plays no role in any computation. -/
structure KeySignature where
  accidentals : Fin 7 → ℤ

/-- Contents of the `c_major` global (also `a_minor`): the accidental
vector `{0, 0, 0, 0, 0, 0, 0}`. -/
def cMajorSig : KeySignature := ⟨fun _ => 0⟩

/-- Contents of the `g_major` global (also `e_minor`). -/
def gMajorSig : KeySignature := ⟨![0, 0, 0, 1, 0, 0, 0]⟩

/-- The source's `get_key_accidental`; `none` models a NULL key pointer.
Rest markers and invalid note names return 0 through the `default` arm. -/
def getKeyAccidental (noteName : Char) (key : Option KeySignature) : ℤ :=
  match key with
  | none => 0
  | some k =>
    if noteName = 'c' then k.accidentals 0
    else if noteName = 'd' then k.accidentals 1
    else if noteName = 'e' then k.accidentals 2
    else if noteName = 'f' then k.accidentals 3
    else if noteName = 'g' then k.accidentals 4
    else if noteName = 'a' then k.accidentals 5
    else if noteName = 'b' then k.accidentals 6
    else 0

/-- The source's `is_rest` (for a non-NULL note). -/
def isRestNote (n : Note) : Bool := n.noteName = 'r'

/-- The source's `note_name_to_semitone`: −1 for rests and invalid names. -/
def noteNameToSemitone (noteName : Char) : ℤ :=
  if noteName = 'c' then 0
  else if noteName = 'd' then 2
  else if noteName = 'e' then 4
  else if noteName = 'f' then 5
  else if noteName = 'g' then 7
  else if noteName = 'a' then 9
  else if noteName = 'b' then 11
  else -1

/-- The source's `note_to_absolute_semitone`: −1 for rests and invalid
notes, otherwise `(octave_shift + 4)·12 + letter semitone + key accidental
+ explicit accidental + transposition`. -/
def noteToAbsoluteSemitone (n : Note) (key : Option KeySignature) (transposition : ℤ) : ℤ :=
  if isRestNote n then -1
  else
    let s := noteNameToSemitone n.noteName
    if s < 0 then -1
    else
      let keyAcc := getKeyAccidental n.noteName key
      (n.octaveShift + 4) * 12 + s + (keyAcc + n.accidental) + transposition

/-- Addresses of the thirty predeclared `key_signature_t` globals. -/
inductive KeyName where
  | cMaj | gMaj | dMaj | aMaj | eMaj | bMaj | fsMaj | csMaj
  | fMaj | bfMaj | efMaj | afMaj | dfMaj | gfMaj | cfMaj
  | aMin | eMin | bMin | fsMin | csMin | gsMin | dsMin | asMin
  | dMin | gMin | cMin | fMin | bfMin | efMin | afMin
deriving DecidableEq, Repr

/-- A value of type `const key_signature_t*`: the address of one of the
thirty predeclared key constants, or any other pointer (for example a
bitwise-equal copy of a constant at a different address), whose pointee
contents are carried alongside. -/
inductive KeyRef where
  | named (k : KeyName)
  | other (contents : KeySignature)

/-- The source's `get_key_tonic_semitone`: a chain of pointer-identity
comparisons against twenty-six of the thirty key globals, defaulting to 0
(C).  The globals `cs_major`, `as_minor`, `cf_major` and `af_minor` are
absent from the chain and fall through to the default, as does every
pointer that is not the address of a key global. -/
def getKeyTonicSemitone (key : KeyRef) : ℤ :=
  match key with
  | .named .cMaj | .named .aMin => 0
  | .named .gMaj | .named .eMin => 7
  | .named .dMaj | .named .bMin => 2
  | .named .aMaj | .named .fsMin => 9
  | .named .eMaj | .named .csMin => 4
  | .named .bMaj | .named .gsMin => 11
  | .named .fsMaj | .named .dsMin => 6
  | .named .fMaj | .named .dMin => 5
  | .named .bfMaj | .named .gMin => 10
  | .named .efMaj | .named .cMin => 3
  | .named .afMaj | .named .fMin => 8
  | .named .dfMaj | .named .bfMin => 1
  | .named .gfMaj | .named .efMin => 6
  | _ => 0

/-- The source's `calculate_key_transposition`. -/
def calculateKeyTransposition (fromKey toKey : KeyRef) : ℤ :=
  getKeyTonicSemitone toKey - getKeyTonicSemitone fromKey

/-- C integer division (truncation toward zero), as `/` on `int` operands. -/
def cdiv (a b : ℤ) : ℤ := Int.tdiv a b

/-- Wrap an integer to the range of C `uint64_t`. -/
def u64 (x : ℤ) : ℤ := x % 18446744073709551616

/-- Truncation of a rational toward zero, the C float-to-integer cast. -/
def truncF (q : ℚ) : ℤ := if 0 ≤ q then ⌊q⌋ else -⌊-q⌋

/-- Round a rational to the nearest integer with ties to even, the IEEE-754
default rounding applied at unit granularity. -/
def rne (x : ℚ) : ℤ :=
  let f := ⌊x⌋
  let r := x - (f : ℚ)
  if r < 1 / 2 then f
  else if 1 / 2 < r then f + 1
  else if f % 2 = 0 then f else f + 1

/-- Floor logarithm base two with explicit fuel (kernel-reducible; the
fuel argument is inert whenever it is at least the input). -/
def log2fuel : ℕ → ℕ → ℕ
  | 0, _ => 0
  | f + 1, n => if 2 ≤ n then log2fuel f (n / 2) + 1 else 0

/-- Greatest `e` with `2 ^ e ≤ n`, for `n > 0`. -/
def natLog2 (n : ℕ) : ℕ := log2fuel n n

/-- Ceiling logarithm base two with explicit fuel. -/
def clog2fuel : ℕ → ℕ → ℕ
  | 0, _ => 0
  | f + 1, n => if 2 ≤ n then clog2fuel f ((n + 1) / 2) + 1 else 0

/-- Least `e` with `n ≤ 2 ^ e`, for `n > 0`. -/
def natClog2 (n : ℕ) : ℕ := clog2fuel n n

/-- Greatest `e : ℤ` with `2 ^ e ≤ a`, for a positive rational `a` (the
binade exponent of `a`); unspecified for `a ≤ 0`. -/
def qlog2 (a : ℚ) : ℤ :=
  if 1 ≤ a then (natLog2 ⌊a⌋.toNat : ℤ) else -(natClog2 ⌈a⁻¹⌉.toNat : ℤ)

/-- Round a rational to the nearest IEEE-754 binary32 value (round to
nearest, ties to even).  This models float arithmetic in the normal range;
none of the values arising in the program reach the subnormal or overflow
ranges. -/
def roundF32 (q : ℚ) : ℚ :=
  if q = 0 then 0
  else
    let a := |q|
    let ulp : ℚ := 2 ^ (qlog2 a - 23)
    let m : ℚ := (rne (a / ulp) : ℚ) * ulp
    if q < 0 then -m else m

/-- Newton iteration for the integer square root, with explicit fuel
(kernel-reducible); the iterate is strictly decreasing until it reaches
the floor square root, so fuel `n` is always enough. -/
def isqrtIter : ℕ → ℕ → ℕ → ℕ
  | 0, _, x => x
  | f + 1, n, x =>
    let y := (x + n / x) / 2
    if y < x then isqrtIter f n y else x

/-- Floor integer square root (kernel-reducible). -/
def isqrt (n : ℕ) : ℕ := if n = 0 then 0 else isqrtIter n n n

/-- The IEEE-754 binary32 square root of a small nonnegative integer,
modelling `sqrtf((float)n)`: the significand is the correctly rounded
(ties cannot occur) scaling of `√n` into the binade of `√n`.  Exact for
`n < 2 ^ 24` (where the int-to-float conversion is exact and `sqrtf` is
correctly rounded); chord sizes, its only argument in the program, are far
below that bound. -/
def sqrtF32 (n : ℕ) : ℚ :=
  if n = 0 then 0
  else
    let e := natLog2 n / 2
    let t := 23 - e
    let bigN := n * 4 ^ t
    let s := isqrt bigN
    let m := if 4 * bigN ≤ (2 * s + 1) ^ 2 then s else s + 1
    (m : ℚ) / 2 ^ t

/-- The `AUDIBLE_THRESHOLD` constant of sequencer.h (`0x00001000`). -/
def audibleThreshold : ℤ := 4096

/-- Binary32 value of the literal `0.05f`. -/
def c05f : ℚ := 13421773 / 268435456

/-- Binary32 value of the literal `0.2f`. -/
def c2f : ℚ := 13421773 / 67108864

/-- Binary32 value of the literal `0.6f`. -/
def c6f : ℚ := 5033165 / 8388608

/-- Binary32 value of the literal `0.5f`. -/
def c5f : ℚ := 1 / 2

/-- Binary32 value of the literal `0.02f`. -/
def c02f : ℚ := 5368709 / 268435456

/-- The C `partial_t`: phase accumulator and increment are `uint32_t`,
the amplitude is a Q1.31 `int32_t`. -/
structure PartialState where
  phaseAccum : ℤ
  phaseInc : ℤ
  amplitude : ℤ
deriving DecidableEq, Repr

/-- The envelope-state union of `event_t`, laid out as the `adsr_t`
member, which is the view the event compiler writes.  The `pluck_decay_t`
member of the union aliases the first three 32-bit words:
`initial_amplitude` ↔ `attack_samples`, `decay_multiplier` ↔
`decay_samples`, `current_level` ↔ `sustain_level`. -/
structure EnvState where
  attackSamples : ℤ
  decaySamples : ℤ
  sustainLevel : ℤ
  releaseSamples : ℤ
  currentLevel : ℤ
  releaseStartLevel : ℤ
  releaseCoeff : ℤ
  minReleaseSamples : ℤ
  phase : ℤ
deriving DecidableEq, Repr

/-- The C `event_t` of sequencer.h. -/
structure Event where
  startSample : ℤ
  durationSamples : ℤ
  releaseSample : ℤ
  instrument : InstrRef
  volumeScale : ℤ
  envState : EnvState
  numPartials : ℕ
  partials : List PartialState
deriving DecidableEq, Repr

/-- The ADSR phase codes `ADSR_ATTACK` … `ADSR_RELEASE`. -/
def adsrAttack : ℤ := 0

/-- The `ADSR_RELEASE` phase code. -/
def adsrRelease : ℤ := 3

/-- The source's `notes_are_simultaneous`. -/
def notesAreSimultaneous (a b : Note) : Bool := a.chordId > 0 && a.chordId = b.chordId

/-- Inputs of `sequence_events`, with its floating-point subcomputations
abstracted where no claim depends on their value: `noteFreq` models the
`double` result of `note_to_frequency(note, temperament, key,
transposition)` (which goes through `powf`), `tupletAdjust d t` models
`(int)((float)d * get_tuplet_ratio(t))`, and `articulate d` models the
`(uint32_t)(d * 0.9)` articulation.  Every theorem below holds for all
instantiations of these parameters. -/
structure SeqCtx where
  sampleRate : ℕ
  tempoBpm : ℤ
  baseVolume : ℚ
  noteFreq : Note → ℚ
  tupletAdjust : ℤ → ℤ → ℤ
  articulate : ℤ → ℤ

/-- The raw duration in samples of one note: `(samples_per_beat * 4) /
note->value`, times 3/2 if dotted, then tuplet-adjusted. -/
def rawDurationOf (ctx : SeqCtx) (n : Note) : ℤ :=
  let spb := cdiv (60 * (ctx.sampleRate : ℤ)) ctx.tempoBpm
  let d0 := cdiv (spb * 4) n.value
  let d1 := if n.dotted then cdiv (d0 * 3) 2 else d0
  if n.tuplet > 0 then ctx.tupletAdjust d1 n.tuplet else d1

/-- The chord-size count of the volume-scaling block: one plus the number
of other positions in the whole note array carrying the same `chord_id`. -/
def chordSizeAt (notes : List Note) (i : ℕ) (cid : ℤ) : ℕ :=
  1 + (notes.enum.filter fun p => p.1 ≠ i && p.2.chordId = cid).length

/-- The `event_volume` of note `i`: the base volume, attenuated by
`sqrtf((float)chord_size)` for chord members (binary32 division). -/
def eventVolumeOf (ctx : SeqCtx) (notes : List Note) (i : ℕ) (n : Note) : ℚ :=
  if n.chordId > 0 then roundF32 (ctx.baseVolume / sqrtF32 (chordSizeAt notes i n.chordId))
  else ctx.baseVolume

/-- The Q1.31 volume scale: `(int32_t)(event_volume * 0x10000000)`, a
binary32 product truncated toward zero. -/
def volumeScaleOf (ctx : SeqCtx) (notes : List Note) (i : ℕ) (n : Note) : ℤ :=
  truncF (roundF32 (eventVolumeOf ctx notes i n * 268435456))

/-- The source's `freq_to_phase_increment`:
`(uint32_t)((freq / sample_rate) * 0x100000000LL)`.  The construction of
the `double` quotient is exact here because `freq` is already the
abstracted frequency parameter; no claim depends on this value. -/
def phaseIncOf (ctx : SeqCtx) (freq : ℚ) : ℤ :=
  u32 (truncF (freq / (ctx.sampleRate : ℚ) * 4294967296))

/-- The event construction block of `sequence_events` for one non-rest
note with positive frequency. -/
def buildEvent (ctx : SeqCtx) (notes : List Note) (i : ℕ) (n : Note) (cur : ℤ) (freq : ℚ) (d : ℤ) :
    Event :=
  let dur := u32 (ctx.articulate d)
  { startSample := u32 cur
    durationSamples := dur
    releaseSample := u32 (u64 (cur + dur))
    instrument := n.instrument
    volumeScale := volumeScaleOf ctx notes i n
    envState :=
      { attackSamples := u32 (truncF (roundF32 ((ctx.sampleRate : ℚ) * c05f)))
        decaySamples := u32 (truncF (roundF32 ((ctx.sampleRate : ℚ) * c2f)))
        sustainLevel := truncF (roundF32 (c6f * 2147483648))
        releaseSamples := u32 (truncF (roundF32 ((ctx.sampleRate : ℚ) * c5f)))
        currentLevel := audibleThreshold
        releaseStartLevel := 0
        releaseCoeff := 0
        minReleaseSamples := u32 (truncF (roundF32 ((ctx.sampleRate : ℚ) * c02f)))
        phase := adsrAttack }
    numPartials := 1
    partials := [{ phaseAccum := 0, phaseInc := phaseIncOf ctx freq, amplitude := 2147483647 }] }

/-- The main loop of `sequence_events`, instrumented with the index of the
source note of each event.  `allNotes` is the whole array (consulted by
the chord-size count), `pending` the notes not yet processed paired with
their indices, `cur` the `current_sample` counter (`uint64_t`). -/
def seqLoopAux (ctx : SeqCtx) (allNotes : List Note) :
    List (ℕ × Note) → ℤ → List (ℕ × Event)
  | [], _ => []
  | (i, n) :: pending, cur =>
    let d := rawDurationOf ctx n
    let emitted : List (ℕ × Event) :=
      if isRestNote n then []
      else if 0 < ctx.noteFreq n then [(i, buildEvent ctx allNotes i n cur (ctx.noteFreq n) d)]
      else []
    let adv : Bool :=
      match pending with
      | (_, n2) :: _ => !notesAreSimultaneous n n2 || isRestNote n
      | [] => true
    emitted ++ seqLoopAux ctx allNotes pending (if adv then u64 (cur + d) else cur)

/-- The source's `sequence_events`, keeping the source-note index of each
event. -/
def sequenceEventsIdx (ctx : SeqCtx) (notes : List Note) : List (ℕ × Event) :=
  if notes.isEmpty then [] else seqLoopAux ctx notes notes.enum 0

/-- The source's `sequence_events`: the event array it returns. -/
def sequenceEvents (ctx : SeqCtx) (notes : List Note) : List Event :=
  (sequenceEventsIdx ctx notes).map Prod.snd

/-- The Q1.31 product step `(int32_t)(((int64_t)a * b) >> 31)`: the
arithmetic right shift is a floor division and the cast wraps. -/
def q31mul (a b : ℤ) : ℤ := i32 (a * b / 2147483648)

/-- The pluck view of the envelope union: `current_level` aliases the
third 32-bit word, written as `sustain_level` by the compiler. -/
def pluckCur (e : EnvState) : ℤ := e.sustainLevel

/-- The pluck view of the envelope union: `decay_multiplier` aliases the
second 32-bit word (`decay_samples`, a `uint32_t`), reinterpreted as a
signed value. -/
def pluckMult (e : EnvState) : ℤ := i32 e.decaySamples

/-- The source's `pluck_envelope`: one step of geometric decay on the
aliased `current_level`, returning the new level. -/
def pluckEnvelope (e : EnvState) : EnvState × ℤ :=
  let lvl := q31mul (pluckCur e) (pluckMult e)
  ({ e with sustainLevel := lvl }, lvl)

/-- The source's `adsr_envelope` (instrument.c).  `rc T` abstracts the
`double` computation `(int32_t)(exp(-log((1.0 + 1e-5) / 1e-5) / T) *
0x7FFFFFFF)` of the release coefficient; every theorem below holds for all
instantiations.  A zero `attack_samples` or `decay_samples` would divide
by zero in C (undefined); the model returns the Lean convention 0 there. -/
def adsrEnvelope (rc : ℤ → ℤ) (e : EnvState) (sss : ℤ) (sur : ℤ) : EnvState × ℤ :=
  if sur ≤ 0 then
    let e1 :=
      if e.phase ≠ adsrRelease then
        let eff := if e.releaseSamples < e.minReleaseSamples then e.minReleaseSamples
                   else e.releaseSamples
        { e with releaseStartLevel := e.currentLevel, phase := adsrRelease,
                 releaseCoeff := rc eff }
      else e
    let lvl0 := q31mul e1.currentLevel e1.releaseCoeff
    let lvl := if lvl0 < audibleThreshold / 4 then 0 else lvl0
    ({ e1 with currentLevel := lvl }, lvl)
  else if sss < e.attackSamples then
    let progress := i32 (cdiv (sss * (2147483647 - audibleThreshold)) e.attackSamples)
    let lvl := i32 (audibleThreshold + progress)
    ({ e with phase := 0, currentLevel := lvl }, lvl)
  else if sss < u32 (e.attackSamples + e.decaySamples) then
    let dp := u32 (sss - e.attackSamples)
    let amount := i32 (cdiv (dp * (2147483647 - e.sustainLevel)) e.decaySamples)
    let lvl := i32 (2147483647 - amount)
    ({ e with phase := 1, currentLevel := lvl }, lvl)
  else
    ({ e with phase := 2, currentLevel := e.sustainLevel }, e.sustainLevel)

/-- The envelope function pointer stored in an instrument; `none` models a
null instrument pointer (the `event->instrument && event->instrument->envelope`
guard). -/
def instrEnvOf (r : InstrRef) : Option EnvKind := (instrDef r).map Instrument.envelope

/-- One step of the partial loop of `generate_event_sample`: sine lookup
at the top ten below-two bits of the phase accumulator, Q1.31 amplitude
scaling, accumulation into the `int32_t` mixer and phase advance. -/
def partialStep (tbl : ℤ → ℤ) (acc : ℤ × List PartialState) (p : PartialState) :
    ℤ × List PartialState :=
  let idx := p.phaseAccum / 4194304 % 1024
  let ws := tbl idx * p.amplitude
  (i32 (acc.1 + i32 (ws / 2147483648)),
   acc.2 ++ [{ p with phaseAccum := u32 (p.phaseAccum + p.phaseInc) }])

/-- The source's `generate_event_sample` (sequencer.c): envelope update by
tag dispatch, partial mixing, envelope and volume scaling, conversion to
S16.  `tbl` abstracts the float-initialized 1024-entry sine table and `rc`
the release-coefficient computation; no claim depends on their values. -/
def genEventSample (tbl rc : ℤ → ℤ) (ev : Event) (csi32 : ℤ) : Event × ℤ :=
  let sss := u32 (csi32 - ev.startSample)
  let sur := i32 (u32 (ev.releaseSample - csi32))
  let er : EnvState × ℤ :=
    match instrEnvOf ev.instrument with
    | some .adsr => adsrEnvelope rc ev.envState sss sur
    | some .pluck => pluckEnvelope ev.envState
    | none => (ev.envState, 2147483647)
  let pr := (ev.partials.take ev.numPartials).foldl (partialStep tbl) (0, [])
  let enveloped := pr.1 * er.2 / 2147483648
  let final := enveloped * ev.volumeScale / 2147483648
  ({ ev with envState := er.1, partials := pr.2 ++ ev.partials.drop ev.numPartials },
   i16 (final / 65536))

/-- The source's `get_current_envelope_level`: dispatch on the envelope
function pointer; unknown or null means "assume audible". -/
def getCurrentEnvelopeLevel (ev : Event) : ℤ :=
  match instrEnvOf ev.instrument with
  | some .adsr => ev.envState.currentLevel
  | some .pluck => pluckCur ev.envState
  | none => 2147483647

/-- The `sequencer_state_t` of sequencer.h.  `active` holds the
`active_events` pointer slots as indices into `events` (the array is never
resized during playback, so indices model the pointers exactly);
`active.length` is `num_active`. -/
structure SeqState where
  events : List Event
  sampleRate : ℕ
  currentSampleIndex : ℤ
  nextEventIndex : ℕ
  active : List ℕ
  completed : Bool

/-- The activation loop of the callback: `while (next_event_index <
events.count && events.data[next].start_sample <= current_sample_index)`,
appending to the active slots only below `MAX_SIMULTANEOUS_EVENTS` but
advancing `next_event_index` unconditionally.  Each iteration advances
`next`, so any fuel above `events.length` is inert. -/
def activateLoop : ℕ → List Event → ℤ → ℕ → List ℕ → ℕ × List ℕ
  | 0, _, _, next, active => (next, active)
  | fuel + 1, events, csi, next, active =>
    if hn : next < events.length then
      if (events.get ⟨next, hn⟩).startSample ≤ csi then
        activateLoop fuel events csi (next + 1)
          (if active.length < 32 then active ++ [next] else active)
      else (next, active)
    else (next, active)

/-- The mixing loop of the callback: generate a sample from each active
event in slot order, accumulating into the `int32_t` mixer and writing the
mutated event (phase accumulators, envelope) back through the pointer. -/
def mixLoop (tbl rc : ℤ → ℤ) (csi32 : ℤ) : List ℕ → List Event × ℤ → List Event × ℤ
  | [], acc => acc
  | j :: rest, (events, mixed) =>
    match events.get? j with
    | some ev =>
      let r := genEventSample tbl rc ev csi32
      mixLoop tbl rc csi32 rest (events.set j r.1, mixed + r.2)
    | none => mixLoop tbl rc csi32 rest (events, mixed)

/-- The removal test of the eviction loop: ADSR events leave when the
release point has passed and the level has decayed to exactly zero, other
events when their current envelope level is below `AUDIBLE_THRESHOLD`. -/
def evictCond (events : List Event) (csi : ℤ) (idx : ℕ) : Bool :=
  match events.get? idx with
  | some ev =>
    match instrEnvOf ev.instrument with
    | some .adsr =>
      let sur := i32 (u64 (ev.releaseSample - csi))
      decide (sur ≤ 0 ∧ ev.envState.currentLevel = 0)
    | _ => getCurrentEnvelopeLevel ev < audibleThreshold
  | none => false

/-- The eviction loop of the callback: iterate the active slots backwards;
a removed slot is overwritten by the last slot, which then drops off
(swap-remove).  `k` is the number of indices still to visit, so the slot
visited next is `k - 1`. -/
def evictLoop (events : List Event) (csi : ℤ) : ℕ → List ℕ → List ℕ
  | 0, active => active
  | k + 1, active =>
    let active' :=
      if h : k < active.length then
        if evictCond events csi (active.get ⟨k, h⟩) then
          (active.set k (active.getLast (by
            intro he
            rw [he] at h
            exact absurd h (by simp)))).dropLast
        else active
      else active
    evictLoop events csi k active'

/-- One iteration of the per-sample loop of `sequencer_callback`:
activate, mix into `buffer[i]`, evict, advance `current_sample_index`. -/
def callbackStep (tbl rc : ℤ → ℤ) (s : SeqState) : SeqState × ℤ :=
  let na := activateLoop (s.events.length + 1) s.events s.currentSampleIndex s.nextEventIndex s.active
  let em := mixLoop tbl rc (u32 s.currentSampleIndex) na.2 (s.events, 0)
  let active2 := evictLoop em.1 s.currentSampleIndex na.2.length na.2
  ({ s with events := em.1, nextEventIndex := na.1, active := active2,
            currentSampleIndex := u64 (s.currentSampleIndex + 1) }, i16 em.2)

/-- The per-sample loop of `sequencer_callback`, returning the final state
and the `num_samples` values written to the buffer. -/
def callbackLoop (tbl rc : ℤ → ℤ) : ℕ → SeqState → SeqState × List ℤ
  | 0, s => (s, [])
  | n + 1, s =>
    let r1 := callbackStep tbl rc s
    let r2 := callbackLoop tbl rc n r1.1
    (r2.1, r1.2 :: r2.2)

/-- The source's `sequencer_callback`: run the per-sample loop, then test
for completion; `false` is the "stop" return. -/
def sequencerCallback (tbl rc : ℤ → ℤ) (s : SeqState) (numSamples : ℕ) :
    SeqState × List ℤ × Bool :=
  let r := callbackLoop tbl rc numSamples s
  if r.1.active.length = 0 ∧ r.1.events.length ≤ r.1.nextEventIndex then
    ({ r.1 with completed := true }, r.2, false)
  else (r.1, r.2, true)

/-- The initial sequencer state built by the test-song constructors:
counters at zero, no active events, not completed. -/
def initSeqState (events : List Event) (rate : ℕ) : SeqState :=
  ⟨events, rate, 0, 0, [], false⟩

/-- A contract-respecting driver: it keeps invoking the callback and never
calls again after receiving "stop".  Returns the list of callback results
observed within `k` invocations. -/
def driverRun (tbl rc : ℤ → ℤ) (numSamples : ℕ) : ℕ → SeqState → List Bool
  | 0, _ => []
  | k + 1, s =>
    let r := sequencerCallback tbl rc s numSamples
    if r.2.2 then r.2.2 :: driverRun tbl rc numSamples k r.1 else [r.2.2]

/-- The time-advance condition of `sequence_events` at note position `i`:
rests advance unconditionally, a last note advances, and otherwise the
counter advances exactly when the following note is not a chord-mate. -/
def advanceCond (notes : List Note) (i : ℕ) : Bool :=
  isRestNote (notes[i]?.getD emptyNote) ||
    match notes[i + 1]? with
    | some n2 => !notesAreSimultaneous (notes[i]?.getD emptyNote) n2
    | none => true

/-- The value of the `current_sample` counter of `sequence_events` when
note position `i` is about to be processed. -/
def curAt (ctx : SeqCtx) (notes : List Note) : ℕ → ℤ
  | 0 => 0
  | i + 1 =>
    if advanceCond notes i then
      u64 (curAt ctx notes i + rawDurationOf ctx (notes[i]?.getD emptyNote))
    else curAt ctx notes i

/-- An input is understood when the `parse_music` loop consumes it to the
end without taking the failure `break`. -/
def understood (input : List Char) : Bool := !(parseMusicR input).broke

/-- The length of the longest understood initial segment of an input. -/
def longestUnderstoodLen (input : List Char) : ℕ :=
  ((List.range (input.length + 1)).filter fun k => understood (input.take k)).foldl max 0

/-- A concrete instantiation of the abstracted floating-point parameters
of `SeqCtx`, used to state closed counterexamples.  The claims settled
with it do not depend on the values of the abstracted parameters: event
counts and start samples only require a positive frequency, and the volume
scale does not involve them at all. -/
def concreteCtx : SeqCtx :=
  { sampleRate := 44100, tempoBpm := 120, baseVolume := 1,
    noteFreq := fun _ => 440, tupletAdjust := fun d _ => d,
    articulate := fun d => u32 (cdiv (d * 9) 10) }

/-! ## Theorems -/

/-- A span whose characters all satisfy `p`, followed by input whose first
character does not, splits `takeWhile`/`dropWhile` exactly at the seam. -/
theorem takeWhile_append_all {α : Type} (p : α → Bool) :
    ∀ (ds rest : List α), (∀ c ∈ ds, p c = true) → (∀ c ∈ rest.take 1, p c = false) →
      (ds ++ rest).takeWhile p = ds ∧ (ds ++ rest).dropWhile p = rest := by
  intro ds
  induction ds with
  | nil =>
    intro rest _ hr
    cases rest with
    | nil => simp
    | cons r t =>
      have : p r = false := hr r (by simp)
      simp [List.takeWhile_cons, List.dropWhile_cons, this]
  | cons a ds ih =>
    intro rest hd hr
    have ha : p a = true := hd a (by simp)
    have := ih rest (fun c hc => hd c (by simp [hc])) hr
    simp [List.takeWhile_cons, List.dropWhile_cons, ha, this.1, this.2]

/-- A digit character is neither an accidental mark nor an octave mark. -/
theorem digit_not_special {c : Char} (h : isDigitC c = true) :
    isAccChar c = false ∧ isOctChar c = false := by
  constructor
  · by_cases h1 : c = 's'
    · subst h1; exact absurd h (by decide)
    · by_cases h2 : c = 'f'
      · subst h2; exact absurd h (by decide)
      · simp [isAccChar, h1, h2]
  · by_cases h1 : c = octUpChar
    · subst h1; exact absurd h (by decide)
    · by_cases h2 : c = ','
      · subst h2; exact absurd h (by decide)
      · simp [isOctChar, h1, h2]

/-- A `c` note head followed by an invalid numeric duration literal makes
`parse_note` return the empty note with the cursor and `last_duration`
untouched. -/
theorem parseNote_invalid_digits (d : Char) (ds' rest : List Char) (ld : ℤ)
    (hdig : ∀ c ∈ d :: ds', isDigitC c = true)
    (hbad : isValidDuration (digitVal (d :: ds')) = false)
    (hrest : ∀ c ∈ rest.take 1, isDigitC c = false) :
    parseNote ('c' :: (d :: ds' ++ rest)) ld = ⟨emptyNote, 'c' :: (d :: ds' ++ rest), ld⟩ := by
  have hd : isDigitC d = true := hdig d (by simp)
  have hacc : isAccChar d = false := (digit_not_special hd).1
  have hoct : isOctChar d = false := (digit_not_special hd).2
  have hspan := takeWhile_append_all isDigitC (d :: ds') rest hdig hrest
  rw [List.cons_append] at hspan
  have hws : skipWs ('c' :: (d :: ds' ++ rest)) = 'c' :: (d :: ds' ++ rest) := by
    simp [skipWs, List.dropWhile_cons, isSpaceC]
  have haccT : List.takeWhile isAccChar (d :: ds' ++ rest) = [] := by
    simp [List.takeWhile_cons, hacc]
  have haccD : List.dropWhile isAccChar (d :: ds' ++ rest) = d :: ds' ++ rest := by
    simp [List.dropWhile_cons, hacc]
  have hoctT : List.takeWhile isOctChar (d :: ds' ++ rest) = [] := by
    simp [List.takeWhile_cons, hoct]
  have hoctD : List.dropWhile isOctChar (d :: ds' ++ rest) = d :: ds' ++ rest := by
    simp [List.dropWhile_cons, hoct]
  unfold parseNote
  rw [hws]
  have h1 : ('c' = 'r') = False := by simp
  have h2 : isValidNoteName 'c' = true := by decide
  simp only [h1, if_false, h2, if_true, haccT, haccD, hoctT, hoctD]
  unfold parseNoteDur
  simp [hd, hspan.1, hspan.2, hbad]

/-- C6 amended: an invalid numeric duration literal drops the note it
attaches to and leaves `last_duration` at its previous value, but parsing
then terminates at that point rather than recovering at the next
whitespace: the loop breaks, the notes already parsed are kept (as in
`c4 c3 d4`, whose parse is exactly the first note) and subsequent input is
not parsed. -/
theorem c6_invalid_duration_amended (ds rest : List Char) (ld : ℤ) (st : RunSt) (fuel : ℕ)
    (hne : ds ≠ []) (hdig : ∀ c ∈ ds, isDigitC c = true)
    (hbad : isValidDuration (digitVal ds) = false)
    (hrest : ∀ c ∈ rest.take 1, isDigitC c = false) :
    parseNote ('c' :: ds ++ rest) ld = ⟨emptyNote, 'c' :: ds ++ rest, ld⟩ ∧
    parseMusicRun (fuel + 1) ('c' :: ds ++ rest) st = ⟨[], 'c' :: ds ++ rest, true⟩ ∧
    parseMusic "c4 c3 d4".toList =
      [{ noteName := 'c', accidental := 0, octaveShift := 0, value := 4, dotted := false,
         tuplet := 0, chordId := 0, instrument := .pluckSine }] := by
  obtain ⟨d, ds', rfl⟩ : ∃ d ds', ds = d :: ds' := by
    cases ds with
    | nil => exact absurd rfl hne
    | cons d t => exact ⟨d, t, rfl⟩
  have hws : skipWs ('c' :: (d :: ds' ++ rest)) = 'c' :: (d :: ds' ++ rest) := by
    simp [skipWs, List.dropWhile_cons, isSpaceC]
  have hpn := parseNote_invalid_digits d ds' rest
  refine ⟨by simpa using hpn ld hdig hbad hrest, ?_, by decide⟩
  unfold parseMusicRun
  rw [show ('c' :: (d :: ds') ++ rest) = ('c' :: (d :: ds' ++ rest)) by simp]
  rw [hws]
  split
  · simp_all
  · rename_i c l2 heq
    obtain ⟨rfl, rfl⟩ : c = 'c' ∧ l2 = d :: ds' ++ rest := by
      cases heq
      exact ⟨rfl, rfl⟩
    have h1 : ('c' = '[') = False := by simp
    have h2 : ('c' = '<') = False := by simp
    simp only [h1, h2, if_false]
    rw [hpn st.ld hdig hbad hrest]
    simp [emptyNote, nulChar]

/-- Witness for C6 amended at the concrete input `c3 d`. -/
theorem c6_invalid_duration_amended_witness :
    parseNote ('c' :: ['3'] ++ [' ', 'd']) 4 = ⟨emptyNote, 'c' :: ['3'] ++ [' ', 'd'], 4⟩ ∧
    parseMusicRun (0 + 1) ('c' :: ['3'] ++ [' ', 'd']) initRunSt =
      ⟨[], 'c' :: ['3'] ++ [' ', 'd'], true⟩ := by
  have h := c6_invalid_duration_amended ['3'] [' ', 'd'] 4 initRunSt 0
    (by decide) (by decide) (by decide) (by decide)
  exact ⟨h.1, h.2.1⟩

/-- C8: for every note, key signature and transposition, the absolute
semitone in key `k` equals the absolute semitone in C major plus the key
accidental of the note's letter in `k`; rests and invalid names return the
sentinel −1 on both sides, with the key accidental 0. -/
theorem c8_key_accidental_decomposition (n : Note) (k : KeySignature) (t : ℤ) :
    noteToAbsoluteSemitone n (some k) t =
      noteToAbsoluteSemitone n (some cMajorSig) t + getKeyAccidental n.noteName (some k) := by
  by_cases hr : isRestNote n
  · have h0 : n.noteName = 'r' := by simpa [isRestNote] using hr
    simp [noteToAbsoluteSemitone, hr, getKeyAccidental, h0]
  · by_cases h1 : n.noteName = 'c'
    · simp [noteToAbsoluteSemitone, hr, getKeyAccidental, noteNameToSemitone, h1, cMajorSig]
      ring
    · by_cases h2 : n.noteName = 'd'
      · simp [noteToAbsoluteSemitone, hr, getKeyAccidental, noteNameToSemitone, h1, h2, cMajorSig]
        ring
      · by_cases h3 : n.noteName = 'e'
        · simp [noteToAbsoluteSemitone, hr, getKeyAccidental, noteNameToSemitone, h1, h2, h3,
            cMajorSig]
          ring
        · by_cases h4 : n.noteName = 'f'
          · simp [noteToAbsoluteSemitone, hr, getKeyAccidental, noteNameToSemitone, h1, h2, h3,
              h4, cMajorSig]
            ring
          · by_cases h5 : n.noteName = 'g'
            · simp [noteToAbsoluteSemitone, hr, getKeyAccidental, noteNameToSemitone, h1, h2, h3,
                h4, h5, cMajorSig]
              ring
            · by_cases h6 : n.noteName = 'a'
              · simp [noteToAbsoluteSemitone, hr, getKeyAccidental, noteNameToSemitone, h1, h2,
                  h3, h4, h5, h6, cMajorSig]
                ring
              · by_cases h7 : n.noteName = 'b'
                · simp [noteToAbsoluteSemitone, hr, getKeyAccidental, noteNameToSemitone, h1, h2,
                    h3, h4, h5, h6, h7, cMajorSig]
                  ring
                · simp [noteToAbsoluteSemitone, hr, getKeyAccidental, noteNameToSemitone, h1, h2,
                    h3, h4, h5, h6, h7]

/-- C10: key identity in the tonic lookup is pointer identity, not
structural equality: every pointer other than the thirty predeclared key
globals yields tonic 0, so the key transposition between two such pointers
is 0 regardless of their contents; a bitwise-equal copy of `g_major`
yields 0 where the global itself yields 7. -/
theorem c10_pointer_identity_tonic :
    (∀ ks : KeySignature, getKeyTonicSemitone (KeyRef.other ks) = 0) ∧
    (∀ ks1 ks2 : KeySignature,
      calculateKeyTransposition (KeyRef.other ks1) (KeyRef.other ks2) = 0) ∧
    getKeyTonicSemitone (KeyRef.other gMajorSig) = 0 ∧
    getKeyTonicSemitone (KeyRef.named .gMaj) = 7 :=
  ⟨fun _ => rfl, fun _ _ => rfl, rfl, rfl⟩

/-- C9 counterexample: parsing `c's` does not produce accidental +1.  The
parsed note has accidental 0 (and tuplet code 7: the `s` after the octave
mark is consumed as a septuplet marker), refuting the claim that `c's`
yields pitch c, accidental +1, octave shift +1. -/
theorem c9_commute_counterexample :
    (parseMusic ('c' :: octUpChar :: 's' :: [])).map Note.accidental = [0] ∧ (0 : ℤ) ≠ 1 :=
  ⟨by decide, by decide⟩

/-- C9 amended: accidental and octave marks each commute within their own
class (`csf` = `cfs`, `c',` = `c,'`), and `cs'` produces pitch c,
accidental +1, octave +1; but the classes do not commute with each other:
in `c's` the trailing `s` is read as a septuplet marker, giving accidental
0, octave +1, tuplet 7.  Accidentals must precede octave marks. -/
theorem c9_spelling_amended :
    parseMusic ('c' :: 's' :: 'f' :: []) = parseMusic ('c' :: 'f' :: 's' :: []) ∧
    parseMusic ('c' :: octUpChar :: ',' :: []) = parseMusic ('c' :: ',' :: octUpChar :: []) ∧
    parseMusic ('c' :: 's' :: octUpChar :: []) =
      [{ noteName := 'c', accidental := 1, octaveShift := 1, value := 4, dotted := false,
         tuplet := 0, chordId := 0, instrument := .pluckSine }] ∧
    parseMusic ('c' :: octUpChar :: 's' :: []) =
      [{ noteName := 'c', accidental := 0, octaveShift := 1, value := 4, dotted := false,
         tuplet := 7, chordId := 0, instrument := .pluckSine }] := by
  refine ⟨by decide, by decide, by decide, by decide⟩

/-- C6 counterexample: after the invalid duration literal in `c3 d4`,
parsing does not recover at the whitespace and does not continue with the
subsequent note: the result is empty, although `d4` alone parses to a
note.  This refutes the claimed recovery. -/
theorem c6_recovery_counterexample :
    parseMusic "c3 d4".toList = [] ∧ parseMusic "d4".toList ≠ [] :=
  ⟨by decide, by decide⟩

/-- C7 counterexample: compiling `[pluck square] c4` yields one event
whose instrument (`pluck_square_instrument`) has three partials, but the
event itself carries exactly one partial, so it cannot hold phase
increments at the fundamental, 3× and 5×. -/
theorem c7_partials_counterexample :
    (sequenceEvents concreteCtx (parseMusic "[pluck square] c4".toList)).map
        (fun e => (e.instrument, e.numPartials, e.partials.length)) =
      [(InstrRef.pluckSquare, 1, 1)] ∧
    pluckSquareInstrument.numPartials = 3 ∧ (1 : ℕ) ≠ 3 :=
  ⟨by decide, by decide, by decide⟩

/-- C4 counterexample: in `<c r g>4` all three notes share chord id 1, yet
the rest inside the chord advances time, so the two events of the chord
(for c and g) start at samples 0 and 22050 respectively (44100 Hz,
120 BPM): members of one chord do not all receive the same start sample. -/
theorem c4_chord_rest_counterexample :
    (parseMusic "<c r g>4".toList).map Note.chordId = [1, 1, 1] ∧
    (sequenceEvents concreteCtx (parseMusic "<c r g>4".toList)).map Event.startSample =
      [0, 22050] ∧ (0 : ℤ) ≠ 22050 :=
  ⟨by decide, by decide, by decide⟩

/-- C5 counterexample: for the input `c3` the longest understood initial
segment is `c` (one character), whose parse is one note, while `parse_music`
on the whole input returns the empty array — the result is not the parse of
the longest understood initial segment. -/
theorem c5_longest_counterexample :
    longestUnderstoodLen "c3".toList = 1 ∧
    parseMusic "c3".toList ≠ parseMusic ("c3".toList.take (longestUnderstoodLen "c3".toList)) :=
  ⟨by decide, by decide⟩

unseal Rat.mul Rat.inv Rat.add Rat.sub in
/-- C3 counterexample: compiling `<c e g>2` with base volume 1.0 gives
each chord member the volume scale 154981280 — the truncated
single-precision chain `(int32_t)(fl32(fl32(1.0f / sqrtf(3.0f)) *
0x10000000))` — whereas `round(base · (1/√3) · 0x10000000)` is 154981283:
the claimed rounding formula does not match the code. -/
theorem c3_volume_round_counterexample :
    (sequenceEvents concreteCtx (parseMusic "<c e g>2".toList)).map Event.volumeScale =
      [154981280, 154981280, 154981280] ∧
    round ((1 : ℝ) * (1 / Real.sqrt 3) * 268435456) = 154981283 ∧
    (154981280 : ℤ) ≠ 154981283 := by
  refine ⟨by decide, ?_, by decide⟩
  have h0 : (0:ℝ) < Real.sqrt 3 := Real.sqrt_pos.mpr (by norm_num)
  have hhi : Real.sqrt 3 < 1.7320508076 := by
    rw [show (1.7320508076 : ℝ) = Real.sqrt (1.7320508076 ^ 2) by
      rw [Real.sqrt_sq (by norm_num)]]
    exact Real.sqrt_lt_sqrt (by norm_num) (by norm_num)
  have hlo : (1.7320508075 : ℝ) < Real.sqrt 3 := by
    rw [show (1.7320508075 : ℝ) = Real.sqrt (1.7320508075 ^ 2) by
      rw [Real.sqrt_sq (by norm_num)]]
    exact Real.sqrt_lt_sqrt (by norm_num) (by norm_num)
  have he : (1 : ℝ) * (1 / Real.sqrt 3) * 268435456 = 268435456 / Real.sqrt 3 := by
    field_simp
  rw [he]
  have h1 : (154981282.5 : ℝ) ≤ 268435456 / Real.sqrt 3 := by
    rw [le_div_iff₀ h0]
    nlinarith
  have h2 : (268435456 : ℝ) / Real.sqrt 3 < 154981283.5 := by
    rw [div_lt_iff₀ h0]
    nlinarith
  rw [round_eq]
  rw [Int.floor_eq_iff]
  constructor <;> push_cast <;> linarith

/-- The single note parsed from `[pluck square] c4`: a quarter-note c
carrying the pluck-square instrument. -/
def psNote : Note :=
  { noteName := 'c', accidental := 0, octaveShift := 0, value := 4, dotted := false,
    tuplet := 0, chordId := 0, instrument := .pluckSquare }

/-- C7 amended: compiling `[pluck square] c4` yields one event whose
instrument (`pluck_square_instrument`) has three partials at harmonic
ratios 1, 3, 5, but the event itself carries a single partial whose phase
increment is the fundamental only — `sequence_events` hard-codes one
partial per event and ignores the instrument's harmonic ratios.  Holds
for every instantiation of the abstracted floating-point parameters with
positive frequency at the parsed note. -/
theorem c7_single_partial_amended (ctx : SeqCtx) (h : 0 < ctx.noteFreq psNote) :
    pluckSquareInstrument.numPartials = 3 ∧
    pluckSquareInstrument.harmonicRatios = [1, 3, 5] ∧
    (sequenceEvents ctx (parseMusic "[pluck square] c4".toList)).map
        (fun e => (e.instrument, e.numPartials, e.partials.map PartialState.phaseInc)) =
      [(InstrRef.pluckSquare, 1, [phaseIncOf ctx (ctx.noteFreq psNote)])] := by
  refine ⟨by decide, by decide, ?_⟩
  have hparse : parseMusic "[pluck square] c4".toList = [psNote] := by decide
  have hr : isRestNote psNote = false := by decide
  have hi : psNote.instrument = .pluckSquare := by decide
  rw [hparse]
  simp [sequenceEvents, sequenceEventsIdx, seqLoopAux, List.enum, List.enumFrom, hr, h,
    buildEvent, hi]

/-- Witness for C7 amended at the concrete context. -/
theorem c7_single_partial_amended_witness :
    (sequenceEvents concreteCtx (parseMusic "[pluck square] c4".toList)).map
        (fun e => (e.instrument, e.numPartials, e.partials.map PartialState.phaseInc)) =
      [(InstrRef.pluckSquare, 1, [phaseIncOf concreteCtx (concreteCtx.noteFreq psNote)])] :=
  (c7_single_partial_amended concreteCtx (by decide)).2.2

/-- C3 amended: compiling `<c e g>2` yields exactly three events, all with
start sample 0, the three notes sharing the positive chord id 1; each
member's Q1.31 volume scale is the truncated single-precision chain
`(int32_t)(fl32(fl32(base / sqrtf(3.0f)) * 0x10000000))` (not the rounded
real-valued product).  Holds for every instantiation of the abstracted
floating-point parameters with positive frequencies. -/
theorem c3_chord_events_amended (ctx : SeqCtx) (h : ∀ n : Note, 0 < ctx.noteFreq n) :
    (parseMusic "<c e g>2".toList).map Note.chordId = [1, 1, 1] ∧
    (sequenceEvents ctx (parseMusic "<c e g>2".toList)).map
        (fun e => (e.startSample, e.volumeScale)) =
      [(0, truncF (roundF32 (roundF32 (ctx.baseVolume / sqrtF32 3) * 268435456))),
       (0, truncF (roundF32 (roundF32 (ctx.baseVolume / sqrtF32 3) * 268435456))),
       (0, truncF (roundF32 (roundF32 (ctx.baseVolume / sqrtF32 3) * 268435456)))] := by
  refine ⟨by decide, ?_⟩
  have hparse : parseMusic "<c e g>2".toList =
      [{ noteName := 'c', accidental := 0, octaveShift := 0, value := 2, dotted := false,
         tuplet := 0, chordId := 1, instrument := .pluckSine },
       { noteName := 'e', accidental := 0, octaveShift := 0, value := 2, dotted := false,
         tuplet := 0, chordId := 1, instrument := .pluckSine },
       { noteName := 'g', accidental := 0, octaveShift := 0, value := 2, dotted := false,
         tuplet := 0, chordId := 1, instrument := .pluckSine }] := by decide
  have hr1 : isRestNote
      { noteName := 'c', accidental := 0, octaveShift := 0, value := 2, dotted := false,
        tuplet := 0, chordId := 1, instrument := InstrRef.pluckSine } = false := by decide
  have hr2 : isRestNote
      { noteName := 'e', accidental := 0, octaveShift := 0, value := 2, dotted := false,
        tuplet := 0, chordId := 1, instrument := InstrRef.pluckSine } = false := by decide
  have hr3 : isRestNote
      { noteName := 'g', accidental := 0, octaveShift := 0, value := 2, dotted := false,
        tuplet := 0, chordId := 1, instrument := InstrRef.pluckSine } = false := by decide
  have hs12 : notesAreSimultaneous
      { noteName := 'c', accidental := 0, octaveShift := 0, value := 2, dotted := false,
        tuplet := 0, chordId := 1, instrument := InstrRef.pluckSine }
      { noteName := 'e', accidental := 0, octaveShift := 0, value := 2, dotted := false,
        tuplet := 0, chordId := 1, instrument := InstrRef.pluckSine } = true := by decide
  have hs23 : notesAreSimultaneous
      { noteName := 'e', accidental := 0, octaveShift := 0, value := 2, dotted := false,
        tuplet := 0, chordId := 1, instrument := InstrRef.pluckSine }
      { noteName := 'g', accidental := 0, octaveShift := 0, value := 2, dotted := false,
        tuplet := 0, chordId := 1, instrument := InstrRef.pluckSine } = true := by decide
  rw [hparse]
  simp only [sequenceEvents, sequenceEventsIdx, List.isEmpty_cons, Bool.false_eq_true,
    if_false, List.enum, List.enumFrom, seqLoopAux, hr1, hr2, hr3, hs12, hs23,
    h _, if_true, Bool.not_true, Bool.false_or, Bool.or_false, List.map_cons,
    List.map_nil, List.map_append, List.nil_append, List.cons_append]
  norm_num [buildEvent, volumeScaleOf, eventVolumeOf, chordSizeAt, u32, u64,
    List.enum, List.enumFrom]

/-- Witness for C3 amended at the concrete context (base volume 1). -/
theorem c3_chord_events_amended_witness :
    (sequenceEvents concreteCtx (parseMusic "<c e g>2".toList)).map
        (fun e => (e.startSample, e.volumeScale)) =
      [(0, truncF (roundF32 (roundF32 (concreteCtx.baseVolume / sqrtF32 3) * 268435456))),
       (0, truncF (roundF32 (roundF32 (concreteCtx.baseVolume / sqrtF32 3) * 268435456))),
       (0, truncF (roundF32 (roundF32 (concreteCtx.baseVolume / sqrtF32 3) * 268435456)))] :=
  (c3_chord_events_amended concreteCtx (fun n => by norm_num [concreteCtx])).2

/-- Splitting a `drop` at a cons: the element is the lookup at `i` and the
tail is the next drop. -/
theorem drop_cons_get {α : Type} {l : List α} {i : ℕ} {n : α} {d : List α}
    (h : l.drop i = n :: d) : l[i]? = some n ∧ l.drop (i + 1) = d := by
  constructor
  · have h0 : (l.drop i)[0]? = some n := by rw [h]; simp
    rw [List.getElem?_drop] at h0
    simpa using h0
  · have h2 : List.drop 1 (List.drop i l) = List.drop (i + 1) l := List.drop_drop 1 i l
    rw [h] at h2
    simpa using h2.symm

/-- Invariant of the `sequence_events` loop: every emitted event starts at
the `current_sample` trace value of its source note, and source notes of
events are never rests. -/
theorem seqLoopAux_start (ctx : SeqCtx) (allNotes : List Note) :
    ∀ (d : List Note) (i : ℕ), allNotes.drop i = d →
      ∀ (j : ℕ) (e : Event),
        (j, e) ∈ seqLoopAux ctx allNotes (List.enumFrom i d) (curAt ctx allNotes i) →
        e.startSample = u32 (curAt ctx allNotes j) ∧
          isRestNote (allNotes[j]?.getD emptyNote) = false := by
  intro d
  induction d with
  | nil =>
    intro i _ j e hmem
    simp [seqLoopAux] at hmem
  | cons n d' ih =>
    intro i hdrop j e hmem
    obtain ⟨hg, hd'⟩ := drop_cons_get hdrop
    have hgd : allNotes[i]?.getD emptyNote = n := by rw [hg]; rfl
    have hadv : (match List.enumFrom (i + 1) d' with
        | (_, n2) :: _ => !notesAreSimultaneous n n2 || isRestNote n
        | [] => true) = advanceCond allNotes i := by
      cases d' with
      | nil =>
        have hlen : allNotes.length ≤ i + 1 := by
          have := List.drop_eq_nil_iff.mp hd'
          omega
        have hnone : allNotes[i + 1]? = none := by
          simp [List.getElem?_eq_none_iff, hlen]
        simp [advanceCond, hnone, hgd]
      | cons n2 d'' =>
        have h2 : allNotes[i + 1]? = some n2 := (drop_cons_get hd').1
        simp only [advanceCond, h2, hgd, List.enumFrom]
        cases hb : notesAreSimultaneous n n2 <;> cases hr : isRestNote n <;> simp
    have hcur : curAt ctx allNotes (i + 1) =
        (if (match List.enumFrom (i + 1) d' with
            | (_, n2) :: _ => !notesAreSimultaneous n n2 || isRestNote n
            | [] => true) = true then
          u64 (curAt ctx allNotes i + rawDurationOf ctx n)
        else curAt ctx allNotes i) := by
      rw [hadv]
      simp [curAt, hgd]
    rw [List.enumFrom] at hmem
    rw [seqLoopAux.eq_def] at hmem
    simp only at hmem
    rw [← hcur] at hmem
    rcases List.mem_append.mp hmem with hin | hin
    · by_cases hr : isRestNote n = true
      · simp [hr] at hin
      · simp only [hr, Bool.false_eq_true, if_false] at hin
        by_cases hf : 0 < ctx.noteFreq n
        · simp [hf] at hin
          obtain ⟨rfl, rfl⟩ := hin
          refine ⟨?_, by simp [hgd, hr]⟩
          simp [buildEvent]
        · simp [hf] at hin
    · exact ih (i + 1) hd' j e hin

/-- C4 amended: (1) every compiled event starts at the `current_sample`
trace value of its source note, and rests never produce events; (2) the
counter advances by the raw duration exactly when the note is a rest, is
last, or the next note is not a chord-mate — so rests advance time
unconditionally; (3) consequently events of consecutive chord-mate notes
share the same start sample (but a rest inside a chord still advances the
counter, so non-adjacent members of one chord can differ). -/
theorem c4_time_advance_amended (ctx : SeqCtx) (notes : List Note) :
    (∀ j e, (j, e) ∈ sequenceEventsIdx ctx notes →
      e.startSample = u32 (curAt ctx notes j) ∧
        isRestNote (notes[j]?.getD emptyNote) = false) ∧
    (∀ i, curAt ctx notes (i + 1) =
      if isRestNote (notes[i]?.getD emptyNote) ||
          !(match notes[i + 1]? with
            | some n2 => notesAreSimultaneous (notes[i]?.getD emptyNote) n2
            | none => false) then
        u64 (curAt ctx notes i + rawDurationOf ctx (notes[i]?.getD emptyNote))
      else curAt ctx notes i) ∧
    (∀ i e e2, (i, e) ∈ sequenceEventsIdx ctx notes →
      (i + 1, e2) ∈ sequenceEventsIdx ctx notes →
      (match notes[i + 1]? with
       | some n2 => notesAreSimultaneous (notes[i]?.getD emptyNote) n2
       | none => false) = true →
      e.startSample = e2.startSample) := by
  have hstart : ∀ j e, (j, e) ∈ sequenceEventsIdx ctx notes →
      e.startSample = u32 (curAt ctx notes j) ∧
        isRestNote (notes[j]?.getD emptyNote) = false := by
    intro j e hmem
    unfold sequenceEventsIdx at hmem
    by_cases hne : notes.isEmpty
    · simp [hne] at hmem
    · simp only [hne, Bool.false_eq_true, if_false] at hmem
      have h0 : curAt ctx notes 0 = 0 := rfl
      rw [List.enum, ← h0] at hmem
      exact seqLoopAux_start ctx notes notes 0 (by simp) j e hmem
  have hadv : ∀ i, advanceCond notes i =
      (isRestNote (notes[i]?.getD emptyNote) ||
        !(match notes[i + 1]? with
          | some n2 => notesAreSimultaneous (notes[i]?.getD emptyNote) n2
          | none => false)) := by
    intro i
    unfold advanceCond
    cases notes[i + 1]? <;> simp
  refine ⟨hstart, ?_, ?_⟩
  · intro i
    rw [← hadv i]
    simp [curAt]
  · intro i e e2 h1 h2 hsim
    have he1 := hstart i e h1
    have he2 := hstart (i + 1) e2 h2
    have hcond : advanceCond notes i = false := by
      rw [hadv i, he1.2, hsim]
      simp
    rw [he1.1, he2.1]
    have : curAt ctx notes (i + 1) = curAt ctx notes i := by
      simp [curAt, hcond]
    rw [this]

/-- Witness for C4 amended: the first event compiled from `<c r g>4`
starts at the trace value of its source index. -/
theorem c4_time_advance_amended_witness :
    ((sequenceEventsIdx concreteCtx (parseMusic "<c r g>4".toList)).get
        ⟨0, by decide⟩).2.startSample =
      u32 (curAt concreteCtx (parseMusic "<c r g>4".toList)
        ((sequenceEventsIdx concreteCtx (parseMusic "<c r g>4".toList)).get ⟨0, by decide⟩).1) := by
  have h := (c4_time_advance_amended concreteCtx (parseMusic "<c r g>4".toList)).1
  have hmem : ((sequenceEventsIdx concreteCtx (parseMusic "<c r g>4".toList)).get
      ⟨0, by decide⟩) ∈ sequenceEventsIdx concreteCtx (parseMusic "<c r g>4".toList) :=
    List.get_mem _ _ _
  exact (h _ _ (by simpa using hmem)).1

theorem activateLoop_len (fuel : ℕ) :
    ∀ (events : List Event) (csi : ℤ) (next : ℕ) (active : List ℕ),
      active.length ≤ 32 →
      (activateLoop fuel events csi next active).2.length ≤ 32 := by
  induction fuel with
  | zero => intro events csi next active h; simpa [activateLoop] using h
  | succ f ih =>
    intro events csi next active h
    rw [activateLoop]
    by_cases hn : next < events.length
    · rw [dif_pos hn]
      by_cases hs : (events.get ⟨next, hn⟩).startSample ≤ csi
      · rw [if_pos hs]
        apply ih
        by_cases hl : active.length < 32
        · rw [if_pos hl]; simp; omega
        · rw [if_neg hl]; exact h
      · rw [if_neg hs]; exact h
    · rw [dif_neg hn]; exact h

theorem activateLoop_full (fuel : ℕ) :
    ∀ (events : List Event) (csi : ℤ) (next : ℕ) (active : List ℕ),
      active.length = 32 →
      (activateLoop fuel events csi next active).2 = active := by
  induction fuel with
  | zero => intro events csi next active _; simp [activateLoop]
  | succ f ih =>
    intro events csi next active h
    rw [activateLoop]
    by_cases hn : next < events.length
    · rw [dif_pos hn]
      by_cases hs : (events.get ⟨next, hn⟩).startSample ≤ csi
      · have hl : ¬ active.length < 32 := by omega
        rw [if_pos hs, if_neg hl]
        exact ih events csi (next + 1) active h
      · rw [if_neg hs]
    · rw [dif_neg hn]

theorem activateLoop_fst_indep (fuel : ℕ) :
    ∀ (events : List Event) (csi : ℤ) (next : ℕ) (active active' : List ℕ),
      (activateLoop fuel events csi next active).1 =
        (activateLoop fuel events csi next active').1 := by
  induction fuel with
  | zero => intro events csi next active active'; simp [activateLoop]
  | succ f ih =>
    intro events csi next active active'
    rw [activateLoop, activateLoop]
    by_cases hn : next < events.length
    · rw [dif_pos hn, dif_pos hn]
      by_cases hs : (events.get ⟨next, hn⟩).startSample ≤ csi
      · rw [if_pos hs, if_pos hs]
        exact ih events csi (next + 1) _ _
      · rw [if_neg hs, if_neg hs]
    · rw [dif_neg hn, dif_neg hn]

theorem evictLoop_len (events : List Event) (csi : ℤ) (k : ℕ) :
    ∀ active : List ℕ,
      (evictLoop events csi k active).length ≤ active.length := by
  induction k with
  | zero => intro active; simp [evictLoop]
  | succ m ih =>
    intro active
    rw [evictLoop]
    by_cases h : m < active.length
    · rw [dif_pos h]
      by_cases hc : evictCond events csi (active.get ⟨m, h⟩) = true
      · rw [if_pos hc]
        refine le_trans (ih _) ?_
        simp
      · rw [if_neg hc]; exact ih active
    · rw [dif_neg h]; exact ih active

theorem callbackStep_active_len (tbl rc : ℤ → ℤ) (s : SeqState)
    (h : s.active.length ≤ 32) :
    (callbackStep tbl rc s).1.active.length ≤ 32 := by
  unfold callbackStep
  simp only
  refine le_trans (evictLoop_len _ _ _ _) ?_
  exact activateLoop_len _ _ _ _ _ h

theorem callbackLoop_active_len (tbl rc : ℤ → ℤ) (n : ℕ) :
    ∀ s : SeqState, s.active.length ≤ 32 →
      (callbackLoop tbl rc n s).1.active.length ≤ 32 := by
  induction n with
  | zero => intro s h; simpa [callbackLoop] using h
  | succ m ih =>
    intro s h
    rw [callbackLoop]
    exact ih _ (callbackStep_active_len tbl rc s h)

/-- C2: the active set never exceeds MAX_SIMULTANEOUS_EVENTS = 32: from any
state within the bound, the state after each of the per-sample iterations
and after the whole callback stays within it; moreover when the active set
is full the activation loop leaves it untouched (eligible events are
dropped silently, no error value exists), while `next_event_index` advances
exactly as it would for any other active set. -/
theorem c2_active_bound (tbl rc : ℤ → ℤ) (s : SeqState) (numSamples : ℕ)
    (h : s.active.length ≤ 32) :
    (∀ k, (callbackLoop tbl rc k s).1.active.length ≤ 32) ∧
    (sequencerCallback tbl rc s numSamples).1.active.length ≤ 32 ∧
    (∀ (fuel : ℕ) (events : List Event) (csi : ℤ) (next : ℕ)
        (active active' : List ℕ),
      (active.length = 32 → (activateLoop fuel events csi next active).2 = active) ∧
      (activateLoop fuel events csi next active).1 =
        (activateLoop fuel events csi next active').1) := by
  refine ⟨fun k => callbackLoop_active_len tbl rc k s h, ?_, ?_⟩
  · have hb := callbackLoop_active_len tbl rc numSamples s h
    simp only [sequencerCallback]
    by_cases hc : (callbackLoop tbl rc numSamples s).1.active.length = 0 ∧
        (callbackLoop tbl rc numSamples s).1.events.length ≤
          (callbackLoop tbl rc numSamples s).1.nextEventIndex
    · rw [if_pos hc]
      simpa using hb
    · rw [if_neg hc]
      exact hb
  · intro fuel events csi next active active'
    exact ⟨activateLoop_full fuel events csi next active,
      activateLoop_fst_indep fuel events csi next active active'⟩

/-- Witness for C2 at a concrete run: the empty initial state is within the
bound and stays within it. -/
theorem c2_active_bound_witness :
    (initSeqState [] 44100).active.length ≤ 32 ∧
      (sequencerCallback (fun _ => 0) (fun _ => 0) (initSeqState [] 44100) 8).1.active.length ≤ 32 :=
  ⟨by decide,
    (c2_active_bound (fun _ => 0) (fun _ => 0) (initSeqState [] 44100) 8 (by decide)).2.1⟩

theorem callbackStep_terminal (tbl rc : ℤ → ℤ) (s : SeqState)
    (ha : s.active = []) (he : s.events.length ≤ s.nextEventIndex) :
    (callbackStep tbl rc s).1.active = [] ∧
      (callbackStep tbl rc s).1.events = s.events ∧
      (callbackStep tbl rc s).1.nextEventIndex = s.nextEventIndex ∧
      (callbackStep tbl rc s).2 = 0 := by
  have hn : ¬ s.nextEventIndex < s.events.length := by omega
  have hact : activateLoop (s.events.length + 1) s.events s.currentSampleIndex
      s.nextEventIndex s.active = (s.nextEventIndex, []) := by
    rw [activateLoop, dif_neg hn, ha]
  simp only [callbackStep, hact]
  simp [mixLoop, evictLoop, i16]

theorem callbackLoop_terminal (tbl rc : ℤ → ℤ) (n : ℕ) :
    ∀ s : SeqState, s.active = [] → s.events.length ≤ s.nextEventIndex →
      (callbackLoop tbl rc n s).1.active = [] ∧
        (callbackLoop tbl rc n s).1.events = s.events ∧
        (callbackLoop tbl rc n s).1.nextEventIndex = s.nextEventIndex ∧
        (callbackLoop tbl rc n s).2 = List.replicate n 0 := by
  induction n with
  | zero => intro s ha he; simp [callbackLoop, ha]
  | succ m ih =>
    intro s ha he
    obtain ⟨h1, h2, h3, h4⟩ := callbackStep_terminal tbl rc s ha he
    have := ih (callbackStep tbl rc s).1 h1 (by rw [h2, h3]; exact he)
    rw [callbackLoop]
    refine ⟨this.1, by rw [this.2.1, h2], by rw [this.2.2.1, h3], ?_⟩
    simp only [h4, this.2.2.2, List.replicate]

theorem driverRun_stop_once (tbl rc : ℤ → ℤ) (numSamples : ℕ) :
    ∀ (k : ℕ) (s : SeqState),
      (driverRun tbl rc numSamples k s).count false ≤ 1 := by
  intro k
  induction k with
  | zero => intro s; simp [driverRun]
  | succ m ih =>
    intro s
    rw [driverRun]
    by_cases hr : (sequencerCallback tbl rc s numSamples).2.2 = true
    · rw [if_pos hr, hr]
      simpa using ih _
    · rw [if_neg hr]
      rw [Bool.eq_false_iff.mpr hr]
      simp

/-- C1: from any state whose active set is empty and whose events are all
consumed — in particular the initial state of an empty event array — the
callback writes `num_samples` zeros, sets `completed`, and returns stop
(`false`); a contract-respecting driver then observes stop exactly once,
and from any state it observes stop at most once. -/
theorem c1_empty_terminal_stop (tbl rc : ℤ → ℤ) (s : SeqState) (numSamples : ℕ)
    (ha : s.active = []) (he : s.events.length ≤ s.nextEventIndex) :
    (sequencerCallback tbl rc s numSamples).2.1 = List.replicate numSamples 0 ∧
    (sequencerCallback tbl rc s numSamples).2.2 = false ∧
    (sequencerCallback tbl rc s numSamples).1.completed = true ∧
    (∀ k, 1 ≤ k → driverRun tbl rc numSamples k s = [false]) ∧
    (∀ k s', (driverRun tbl rc numSamples k s').count false ≤ 1) := by
  obtain ⟨h1, h2, h3, h4⟩ := callbackLoop_terminal tbl rc numSamples s ha he
  have hc : (callbackLoop tbl rc numSamples s).1.active.length = 0 ∧
      (callbackLoop tbl rc numSamples s).1.events.length ≤
        (callbackLoop tbl rc numSamples s).1.nextEventIndex := by
    rw [h1, h2, h3]
    exact ⟨rfl, he⟩
  have hcb : sequencerCallback tbl rc s numSamples =
      ({ (callbackLoop tbl rc numSamples s).1 with completed := true },
        (callbackLoop tbl rc numSamples s).2, false) := by
    simp only [sequencerCallback]
    rw [if_pos hc]
  refine ⟨by rw [hcb]; exact h4, by rw [hcb], by rw [hcb], ?_,
    fun k s' => driverRun_stop_once tbl rc numSamples k s'⟩
  intro k hk
  obtain ⟨m, rfl⟩ : ∃ m, k = m + 1 := ⟨k - 1, by omega⟩
  rw [driverRun]
  rw [hcb]
  simp

/-- Witness for C1: the empty-events initial sequencer at 44100 Hz, asked
for four samples, returns four zeros, completion and stop. -/
theorem c1_empty_terminal_stop_witness :
    (initSeqState [] 44100).active = [] ∧
      (sequencerCallback (fun _ => 0) (fun _ => 0) (initSeqState [] 44100) 4).2.1 =
        List.replicate 4 0 ∧
      (sequencerCallback (fun _ => 0) (fun _ => 0) (initSeqState [] 44100) 4).2.2 = false :=
  ⟨rfl,
    (c1_empty_terminal_stop (fun _ => 0) (fun _ => 0) (initSeqState [] 44100) 4
      rfl (by decide)).1,
    (c1_empty_terminal_stop (fun _ => 0) (fun _ => 0) (initSeqState [] 44100) 4
      rfl (by decide)).2.1⟩

theorem dropWhile_head_not {α : Type} (p : α → Bool) :
    ∀ (l : List α) {c : α} {l2 : List α}, l.dropWhile p = c :: l2 → p c = false := by
  intro l
  induction l with
  | nil => intro c l2 h; simp at h
  | cons a l ih =>
    intro c l2 h
    rw [List.dropWhile_cons] at h
    by_cases hp : p a = true
    · rw [if_pos hp] at h; exact ih h
    · rw [if_neg hp] at h
      cases h
      simpa using hp

theorem span_unappend {α : Type} (p : α → Bool) (w t z : List α)
    (h : (w ++ t).dropWhile p = z ++ t) :
    (w ++ t).takeWhile p = w.takeWhile p ∧ w.dropWhile p = z := by
  rw [List.dropWhile_append] at h
  by_cases he : (w.dropWhile p).isEmpty = true
  · rw [if_pos he] at h
    have hwd : w.dropWhile p = [] := List.isEmpty_iff.mp he
    have hz : z = [] := by
      have h1 : (t.dropWhile p).length ≤ t.length :=
        (List.dropWhile_suffix p).length_le
      have h2 := congrArg List.length h
      rw [List.length_append] at h2
      have h3 : z.length = 0 := by omega
      exact List.length_eq_zero.mp h3
    subst hz
    rw [List.nil_append] at h
    have hwall : w.takeWhile p = w := by
      have h4 := List.takeWhile_append_dropWhile p w
      rw [hwd] at h4
      simpa using h4
    have htnone : t.takeWhile p = [] := by
      have h5 := List.takeWhile_append_dropWhile p t
      rw [h] at h5
      have h6 := congrArg List.length h5
      rw [List.length_append] at h6
      have h7 : (t.takeWhile p).length = 0 := by omega
      exact List.length_eq_zero.mp h7
    constructor
    · rw [List.takeWhile_append, if_pos (by rw [hwall]), htnone]
      simpa using hwall.symm
    · exact hwd
  · rw [if_neg he] at h
    have hz : w.dropWhile p = z := List.append_cancel_right h
    refine ⟨?_, hz⟩
    rw [List.takeWhile_append]
    have hlt : (w.takeWhile p).length ≠ w.length := by
      intro hlen
      have h1 := List.takeWhile_append_dropWhile p w
      have h2 := congrArg List.length h1
      rw [List.length_append] at h2
      have h3 : (w.dropWhile p).length = 0 := by omega
      rw [List.length_eq_zero] at h3
      rw [h3] at he
      simp at he
    rw [if_neg hlt]

theorem skipWs_unappend {w t z : List Char} (h : skipWs (w ++ t) = z ++ t) :
    skipWs w = z :=
  (span_unappend isSpaceC w t z h).2

theorem scanDot_cons (c : Char) (l : List Char) :
    scanDot (c :: l) = if c = '.' then (true, l) else (false, c :: l) := by
  by_cases h : c = '.'
  · subst h; rw [if_pos rfl]; rfl
  · rw [if_neg h]
    rw [scanDot.eq_def]
    split
    · rename_i l2 heq
      cases heq
      exact absurd rfl h
    · rfl

theorem scanDot_suffix (l : List Char) : (scanDot l).2 <:+ l := by
  match l with
  | [] => exact List.suffix_rfl
  | c :: l2 =>
    rw [scanDot_cons]
    by_cases h : c = '.'
    · rw [if_pos h]; exact ⟨[c], rfl⟩
    · rw [if_neg h]

theorem scanTuplet_suffix (l : List Char) : (scanTuplet l).2 <:+ l := by
  match l with
  | [] => exact List.suffix_rfl
  | c :: l2 =>
    rw [scanTuplet]
    by_cases h : isTupletChar c = true
    · rw [if_pos h]; exact ⟨[c], rfl⟩
    · rw [if_neg h]

theorem parseNoteTail_suffix (ld : ℤ) (n : Note) (l : List Char) :
    (parseNoteTail ld n l).rest <:+ l := by
  rw [parseNoteTail]
  exact (scanTuplet_suffix _).trans (scanDot_suffix l)

theorem scanDot_unappend (w t z : List Char) (b : Bool) (r : List Char)
    (hbig : scanDot (w ++ t) = (b, r)) (hr : r = z ++ t) :
    scanDot w = (b, z) := by
  subst hr
  match w with
  | [] =>
    rw [List.nil_append] at hbig
    cases t with
    | nil =>
      have h0 : scanDot ([] : List Char) = (false, []) := rfl
      rw [h0] at hbig ⊢
      have h1 : b = false := (Prod.mk.injEq _ _ _ _ ▸ hbig.symm).1
      have h2 : ([] : List Char) = z ++ [] := (Prod.mk.injEq _ _ _ _ ▸ hbig).2
      have hz : z = [] := by simpa using h2.symm
      rw [h1, hz]
    | cons c t2 =>
      rw [scanDot_cons] at hbig
      by_cases hc : c = '.'
      · rw [if_pos hc] at hbig
        exfalso
        have h2 : t2 = z ++ c :: t2 := (Prod.mk.injEq _ _ _ _ ▸ hbig).2
        have h3 := congrArg List.length h2
        rw [List.length_append, List.length_cons] at h3
        omega
      · rw [if_neg hc] at hbig
        have h1 : b = false := (Prod.mk.injEq _ _ _ _ ▸ hbig).1.symm
        have h2 : c :: t2 = z ++ c :: t2 := (Prod.mk.injEq _ _ _ _ ▸ hbig).2
        have h3 := congrArg List.length h2
        rw [List.length_append, List.length_cons] at h3
        have hz : z = [] := List.length_eq_zero.mp (by omega)
        rw [h1, hz]
        rfl
  | c :: w2 =>
    rw [List.cons_append, scanDot_cons] at hbig
    rw [scanDot_cons]
    by_cases hc : c = '.'
    · simp only [if_pos hc] at hbig ⊢
      have h1 : b = true := (Prod.mk.injEq _ _ _ _ ▸ hbig).1.symm
      have h2 : w2 ++ t = z ++ t := (Prod.mk.injEq _ _ _ _ ▸ hbig).2
      rw [h1, List.append_cancel_right h2]
    · simp only [if_neg hc] at hbig ⊢
      have h1 : b = false := (Prod.mk.injEq _ _ _ _ ▸ hbig).1.symm
      have h2 : c :: (w2 ++ t) = z ++ t := (Prod.mk.injEq _ _ _ _ ▸ hbig).2
      have h2' : (c :: w2) ++ t = z ++ t := by rw [List.cons_append]; exact h2
      rw [h1, List.append_cancel_right h2']

theorem scanTuplet_unappend (w t z : List Char) (v : ℤ) (r : List Char)
    (hbig : scanTuplet (w ++ t) = (v, r)) (hr : r = z ++ t) :
    scanTuplet w = (v, z) := by
  subst hr
  match w with
  | [] =>
    rw [List.nil_append] at hbig
    cases t with
    | nil =>
      have h0 : scanTuplet ([] : List Char) = (0, []) := rfl
      rw [h0] at hbig ⊢
      have h1 : v = 0 := (Prod.mk.injEq _ _ _ _ ▸ hbig.symm).1
      have h2 : ([] : List Char) = z ++ [] := (Prod.mk.injEq _ _ _ _ ▸ hbig).2
      have hz : z = [] := by simpa using h2.symm
      rw [h1, hz]
    | cons c t2 =>
      rw [scanTuplet] at hbig
      by_cases hc : isTupletChar c = true
      · rw [if_pos hc] at hbig
        exfalso
        have h2 : t2 = z ++ c :: t2 := (Prod.mk.injEq _ _ _ _ ▸ hbig).2
        have h3 := congrArg List.length h2
        rw [List.length_append, List.length_cons] at h3
        omega
      · rw [if_neg hc] at hbig
        have h1 : v = 0 := (Prod.mk.injEq _ _ _ _ ▸ hbig).1.symm
        have h2 : c :: t2 = z ++ c :: t2 := (Prod.mk.injEq _ _ _ _ ▸ hbig).2
        have h3 := congrArg List.length h2
        rw [List.length_append, List.length_cons] at h3
        have hz : z = [] := List.length_eq_zero.mp (by omega)
        rw [h1, hz]
        rfl
  | c :: w2 =>
    rw [List.cons_append, scanTuplet] at hbig
    rw [scanTuplet]
    by_cases hc : isTupletChar c = true
    · simp only [if_pos hc] at hbig ⊢
      have h1 : v = tupletOf c := (Prod.mk.injEq _ _ _ _ ▸ hbig).1.symm
      have h2 : w2 ++ t = z ++ t := (Prod.mk.injEq _ _ _ _ ▸ hbig).2
      rw [h1, List.append_cancel_right h2]
    · simp only [if_neg hc] at hbig ⊢
      have h1 : v = 0 := (Prod.mk.injEq _ _ _ _ ▸ hbig).1.symm
      have h2 : c :: (w2 ++ t) = z ++ t := (Prod.mk.injEq _ _ _ _ ▸ hbig).2
      have h2' : (c :: w2) ++ t = z ++ t := by rw [List.cons_append]; exact h2
      rw [h1, List.append_cancel_right h2']

theorem parseNoteTail_unappend (ld : ℤ) (n : Note) (w t z : List Char)
    (hr : (parseNoteTail ld n (w ++ t)).rest = z ++ t) :
    parseNoteTail ld n w = ⟨(parseNoteTail ld n (w ++ t)).note, z, ld⟩ := by
  rcases hsd : scanDot (w ++ t) with ⟨b, r1⟩
  rcases hst : scanTuplet r1 with ⟨v, r2⟩
  have hbig : parseNoteTail ld n (w ++ t) =
      ⟨{ n with dotted := b, tuplet := v }, r2, ld⟩ := by
    rw [parseNoteTail, hsd]
    simp only
    rw [hst]
  have hr2 : r2 = z ++ t := by rw [hbig] at hr; exact hr
  obtain ⟨z1, hz1⟩ : t <:+ r1 := by
    have : z ++ t <:+ r1 := by
      rw [← hr2]
      have := scanTuplet_suffix r1
      rw [hst] at this
      exact this
    exact (List.suffix_append z t).trans this
  have hd := scanDot_unappend w t z1 b r1 hsd hz1.symm
  have ht := scanTuplet_unappend z1 t z v r2 (by rw [hz1]; exact hst) hr2
  rw [parseNoteTail, hd]
  simp only
  rw [ht, hbig]
theorem skipWs_cons_nonspace (c : Char) (l2 : List Char) (hc : isSpaceC c = false) :
    skipWs (c :: l2) = c :: l2 := by
  rw [skipWs, List.dropWhile_cons, if_neg (by rw [hc]; simp)]

theorem parseNote_nil_eq (input : List Char) (ld : ℤ) (hws : skipWs input = []) :
    parseNote input ld = ⟨{ emptyNote with value := i8 ld }, [], ld⟩ := by
  rw [parseNote, hws]

theorem parseNote_cons_eq (input : List Char) (c : Char) (l2 : List Char) (ld : ℤ)
    (hws : skipWs input = c :: l2) :
    parseNote input ld =
      (if c = 'r' then
        parseNoteDur input ld { emptyNote with value := i8 ld, noteName := 'r' } l2
      else if isValidNoteName c = true then
        parseNoteDur input ld { emptyNote with value := i8 ld, noteName := c, accidental := i8 (accSum (l2.takeWhile isAccChar)), octaveShift := i8 (octSum ((l2.dropWhile isAccChar).takeWhile isOctChar)) } ((l2.dropWhile isAccChar).dropWhile isOctChar)
      else ⟨{ emptyNote with value := i8 ld }, input, ld⟩) := by
  rw [parseNote, hws]

theorem parseNoteWithoutDur_nil_eq (input : List Char) (hws : skipWs input = []) :
    parseNoteWithoutDur input = (emptyNote, []) := by
  rw [parseNoteWithoutDur, hws]

theorem parseNoteWithoutDur_cons_eq (input : List Char) (c : Char) (l2 : List Char)
    (hws : skipWs input = c :: l2) :
    parseNoteWithoutDur input =
      (if c = 'r' then ({ emptyNote with noteName := 'r' }, l2)
      else if isValidNoteName c = true then
        ({ emptyNote with noteName := c, accidental := i8 (accSum (l2.takeWhile isAccChar)), octaveShift := i8 (octSum ((l2.dropWhile isAccChar).takeWhile isOctChar)) }, (l2.dropWhile isAccChar).dropWhile isOctChar)
      else (emptyNote, c :: l2)) := by
  rw [parseNoteWithoutDur, hws]

theorem chordLoop_succ_nil (f : ℕ) (size : ℕ) : chordLoop (f + 1) [] size = ([], []) := rfl

theorem chordLoop_succ_cons (f : ℕ) (c : Char) (l2 : List Char) (size : ℕ) :
    chordLoop (f + 1) (c :: l2) size =
      (if c = '>' then ([], c :: l2)
       else if 8 ≤ size then ([], c :: l2)
       else
         let nr := parseNoteWithoutDur (c :: l2)
         if nr.1.noteName = nulChar then ([], nr.2)
         else
           let rec2 := chordLoop f (skipWs nr.2) (size + 1)
           (nr.1 :: rec2.1, rec2.2)) := rfl

theorem parseMusicRun_succ_nil (f : ℕ) (l : List Char) (st : RunSt)
    (hws : skipWs l = []) : parseMusicRun (f + 1) l st = ⟨[], [], false⟩ := by
  rw [parseMusicRun, hws]

theorem parseMusicRun_succ_cons (f : ℕ) (l : List Char) (st : RunSt)
    (c : Char) (l2 : List Char) (hws : skipWs l = c :: l2) :
    parseMusicRun (f + 1) l st =
      (if c = '[' then
        let nm := (l2.takeWhile (fun d => d ≠ ']')).take 31
        let l3 := l2.drop nm.length
        match l3 with
        | ']' :: l4 => parseMusicRun f l4 { st with instr := lookupInstrument nm }
        | _ => parseMusicRun f l3 st
      else if c = '<' then
        match parseChord (c :: l2) st.ld with
        | some (cns, l3, ld2) =>
          if cns = [] then parseMusicRun f l3 { st with ld := ld2 }
          else
            let tagged := cns.map fun n =>
              { n with chordId := i16 st.chordCounter, instrument := st.instr }
            let r := parseMusicRun f l3
              { st with ld := ld2, chordCounter := st.chordCounter + 1 }
            ⟨tagged ++ r.notes, r.rest, r.broke⟩
        | none => ⟨[], c :: l2, true⟩
      else
        let pr := parseNote (c :: l2) st.ld
        if pr.note.noteName = nulChar then ⟨[], c :: l2, true⟩
        else
          let n := { pr.note with instrument := st.instr, chordId := 0 }
          let r := parseMusicRun f pr.rest { st with ld := pr.ld }
          ⟨n :: r.notes, r.rest, r.broke⟩) := by
  rw [parseMusicRun, hws]

theorem parseNoteDur_suffix (orig : List Char) (ld : ℤ) (n : Note) (l : List Char)
    (hno : (parseNoteDur orig ld n l).note.noteName ≠ nulChar) :
    (parseNoteDur orig ld n l).rest <:+ l := by
  rw [parseNoteDur] at hno ⊢
  by_cases hds : l.takeWhile isDigitC = []
  · rw [if_pos hds] at hno ⊢
    exact parseNoteTail_suffix _ _ _
  · rw [if_neg hds] at hno ⊢
    by_cases hv : isValidDuration (digitVal (l.takeWhile isDigitC)) = true
    · rw [if_pos hv] at hno ⊢
      exact (parseNoteTail_suffix _ _ _).trans (List.dropWhile_suffix _)
    · rw [if_neg hv] at hno
      exact absurd rfl hno

theorem parseNote_rest_suffix (input : List Char) (ld : ℤ) :
    (parseNote input ld).rest <:+ input := by
  rcases hws : skipWs input with _ | ⟨c, l2⟩
  · rw [parseNote_nil_eq input ld hws]
    exact List.nil_suffix
  · rw [parseNote_cons_eq input c l2 ld hws]
    have hsuf : c :: l2 <:+ input := by
      rw [← hws]; exact List.dropWhile_suffix _
    have hsuf2 : l2 <:+ input := (List.IsSuffix.trans ⟨[c], rfl⟩ hsuf)
    by_cases hr : c = 'r'
    · rw [if_pos hr]
      rw [parseNoteDur]
      by_cases hds : l2.takeWhile isDigitC = []
      · rw [if_pos hds]
        exact (parseNoteTail_suffix _ _ _).trans hsuf2
      · rw [if_neg hds]
        by_cases hv : isValidDuration (digitVal (l2.takeWhile isDigitC)) = true
        · rw [if_pos hv]
          exact ((parseNoteTail_suffix _ _ _).trans (List.dropWhile_suffix _)).trans hsuf2
        · rw [if_neg hv]
    · rw [if_neg hr]
      by_cases hvn : isValidNoteName c = true
      · rw [if_pos hvn]
        rw [parseNoteDur]
        by_cases hds : ((l2.dropWhile isAccChar).dropWhile isOctChar).takeWhile isDigitC = []
        · rw [if_pos hds]
          exact ((parseNoteTail_suffix _ _ _).trans
            ((List.dropWhile_suffix _).trans (List.dropWhile_suffix _))).trans hsuf2
        · rw [if_neg hds]
          by_cases hv : isValidDuration (digitVal
              (((l2.dropWhile isAccChar).dropWhile isOctChar).takeWhile isDigitC)) = true
          · rw [if_pos hv]
            exact (((parseNoteTail_suffix _ _ _).trans (List.dropWhile_suffix _)).trans
              ((List.dropWhile_suffix _).trans (List.dropWhile_suffix _))).trans hsuf2
          · rw [if_neg hv]
      · rw [if_neg hvn]

theorem parseNote_consumes (c : Char) (l2 : List Char) (ld : ℤ)
    (hc : isSpaceC c = false)
    (hno : (parseNote (c :: l2) ld).note.noteName ≠ nulChar) :
    (parseNote (c :: l2) ld).rest <:+ l2 := by
  have hws := skipWs_cons_nonspace c l2 hc
  rw [parseNote_cons_eq (c :: l2) c l2 ld hws] at hno ⊢
  by_cases hr : c = 'r'
  · rw [if_pos hr] at hno ⊢
    exact parseNoteDur_suffix _ _ _ _ hno
  · rw [if_neg hr] at hno ⊢
    by_cases hvn : isValidNoteName c = true
    · rw [if_pos hvn] at hno ⊢
      exact (parseNoteDur_suffix _ _ _ _ hno).trans
        ((List.dropWhile_suffix _).trans (List.dropWhile_suffix _))
    · rw [if_neg hvn] at hno
      exact absurd rfl hno

theorem parseNoteWithoutDur_suffix (input : List Char) :
    (parseNoteWithoutDur input).2 <:+ input := by
  rcases hws : skipWs input with _ | ⟨c, l2⟩
  · rw [parseNoteWithoutDur_nil_eq input hws]
    exact List.nil_suffix
  · rw [parseNoteWithoutDur_cons_eq input c l2 hws]
    have hsuf : c :: l2 <:+ input := by
      rw [← hws]; exact List.dropWhile_suffix _
    have hsuf2 : l2 <:+ input := (List.IsSuffix.trans ⟨[c], rfl⟩ hsuf)
    by_cases hr : c = 'r'
    · rw [if_pos hr]
      exact hsuf2
    · rw [if_neg hr]
      by_cases hvn : isValidNoteName c = true
      · rw [if_pos hvn]
        exact ((List.dropWhile_suffix _).trans (List.dropWhile_suffix _)).trans hsuf2
      · rw [if_neg hvn]
        exact hsuf

theorem parseNoteWithoutDur_consumes (input : List Char)
    (hno : (parseNoteWithoutDur input).1.noteName ≠ nulChar) :
    (parseNoteWithoutDur input).2.length < input.length := by
  rcases hws : skipWs input with _ | ⟨c, l2⟩
  · rw [parseNoteWithoutDur_nil_eq input hws] at hno
    exact absurd rfl hno
  · rw [parseNoteWithoutDur_cons_eq input c l2 hws] at hno ⊢
    have hsuf : c :: l2 <:+ input := by
      rw [← hws]; exact List.dropWhile_suffix _
    have hlen : l2.length + 1 ≤ input.length := by
      have := hsuf.length_le
      simpa using this
    by_cases hr : c = 'r'
    · rw [if_pos hr]
      simpa using hlen
    · rw [if_neg hr] at hno ⊢
      by_cases hvn : isValidNoteName c = true
      · rw [if_pos hvn]
        have h2 := (List.IsSuffix.trans
          (@List.dropWhile_suffix Char (List.dropWhile isAccChar l2) isOctChar)
          (@List.dropWhile_suffix Char l2 isAccChar)).length_le
        simp only
        omega
      · rw [if_neg hvn] at hno
        exact absurd rfl hno

theorem chordLoop_suffix (fuel : ℕ) :
    ∀ (l : List Char) (size : ℕ), (chordLoop fuel l size).2 <:+ l := by
  induction fuel with
  | zero => intro l size; exact List.suffix_rfl
  | succ f ih =>
    intro l size
    rcases l with _ | ⟨c, l2⟩
    · rw [chordLoop_succ_nil]
    · rw [chordLoop_succ_cons]
      by_cases hgt : c = '>'
      · rw [if_pos hgt]
      · rw [if_neg hgt]
        by_cases hsz : 8 ≤ size
        · rw [if_pos hsz]
        · rw [if_neg hsz]
          simp only
          by_cases hno : (parseNoteWithoutDur (c :: l2)).1.noteName = nulChar
          · rw [if_pos hno]
            exact parseNoteWithoutDur_suffix _
          · rw [if_neg hno]
            exact ((ih _ _).trans (List.dropWhile_suffix _)).trans
              (parseNoteWithoutDur_suffix _)

theorem parseDurationMods_suffix (l : List Char) (ld : ℤ) :
    (parseDurationMods l ld).rest <:+ l := by
  rw [parseDurationMods]
  exact ((scanTuplet_suffix _).trans (scanDot_suffix _)).trans (List.dropWhile_suffix _)

theorem stripGt_suffix (l : List Char) :
    (match l with | '>' :: l4 => l4 | l4 => l4) <:+ l := by
  split
  · exact ⟨['>'], rfl⟩
  · exact List.suffix_rfl

theorem parseChord_lt_eq (l2 : List Char) (ld : ℤ) :
    parseChord ('<' :: l2) ld =
      (let lp := chordLoop (l2.length + 1) l2 0
       let l3 := match lp.2 with | '>' :: l4 => l4 | l4 => l4
       if lp.1 = [] then some ([], l3, ld)
       else
         let m := parseDurationMods l3 ld
         some (lp.1.map (applyDurMods m), m.rest, m.ld)) := rfl

theorem parseChord_cursor (l2 : List Char) (ld : ℤ) {ns : List Note}
    {l3 : List Char} {ld2 : ℤ}
    (h : parseChord ('<' :: l2) ld = some (ns, l3, ld2)) : l3 <:+ l2 := by
  rw [parseChord_lt_eq] at h
  simp only at h
  by_cases he : (chordLoop (l2.length + 1) l2 0).1 = []
  · rw [if_pos he] at h
    simp only [Option.some.injEq, Prod.mk.injEq] at h
    rw [← h.2.1]
    exact (stripGt_suffix _).trans (chordLoop_suffix _ _ _)
  · rw [if_neg he] at h
    simp only [Option.some.injEq, Prod.mk.injEq] at h
    rw [← h.2.1]
    exact ((parseDurationMods_suffix _ _).trans (stripGt_suffix _)).trans
      (chordLoop_suffix _ _ _)

theorem parseMusicRun_suffix (fuel : ℕ) :
    ∀ (l : List Char) (st : RunSt), (parseMusicRun fuel l st).rest <:+ l := by
  induction fuel with
  | zero => intro l st; exact List.suffix_rfl
  | succ f ih =>
    intro l st
    rcases hws : skipWs l with _ | ⟨c, l2⟩
    · rw [parseMusicRun_succ_nil f l st hws]
      exact List.nil_suffix
    · rw [parseMusicRun_succ_cons f l st c l2 hws]
      have hsuf : c :: l2 <:+ l := by
        rw [← hws]; exact List.dropWhile_suffix _
      have hsuf2 : l2 <:+ l := (List.IsSuffix.trans ⟨[c], rfl⟩ hsuf)
      by_cases hbr : c = '['
      · rw [if_pos hbr]
        simp only
        have hdrop : l2.drop ((l2.takeWhile (fun d => d ≠ ']')).take 31).length <:+ l2 :=
          List.drop_suffix _ _
        split
        · rename_i l4 heq
          refine (ih _ _).trans (List.IsSuffix.trans ?_ hsuf2)
          exact (List.IsSuffix.trans ⟨[']'], heq.symm⟩ hdrop)
        · exact (ih _ _).trans (hdrop.trans hsuf2)
      · rw [if_neg hbr]
        by_cases hlt : c = '<'
        · rw [if_pos hlt]
          subst hlt
          rcases hpc : parseChord ('<' :: l2) st.ld with _ | ⟨⟨cns, l3, ld2⟩⟩
          · exact hsuf
          · simp only
            have hcur : l3 <:+ l2 := parseChord_cursor l2 st.ld hpc
            by_cases hce : cns = []
            · rw [if_pos hce]
              exact (ih _ _).trans (hcur.trans hsuf2)
            · rw [if_neg hce]
              exact (ih _ _).trans (hcur.trans hsuf2)
        · rw [if_neg hlt]
          simp only
          by_cases hno : (parseNote (c :: l2) st.ld).note.noteName = nulChar
          · rw [if_pos hno]
            exact hsuf
          · rw [if_neg hno]
            have hc : isSpaceC c = false := dropWhile_head_not isSpaceC l hws
            exact (ih _ _).trans ((parseNote_consumes c l2 st.ld hc hno).trans hsuf2)
theorem bracketStep (f : ℕ) (st : RunSt) (nm : List Char) (l3 : List Char) :
    (match l3 with
     | ']' :: l4 => parseMusicRun f l4 { st with instr := lookupInstrument nm }
     | _ => parseMusicRun f l3 st) =
    (if l3.head? = some ']' then
      parseMusicRun f l3.tail { st with instr := lookupInstrument nm }
    else parseMusicRun f l3 st) := by
  split
  · rename_i l4
    simp
  · rename_i hne
    rcases l3 with _ | ⟨d, l4⟩
    · simp
    · have hd : ¬ d = ']' := by
        intro hd
        exact hne l4 (by rw [hd])
      simp [hd]

theorem suffix_cons_length {α : Type} {c : α} {l2 l : List α} (h : c :: l2 <:+ l) :
    l2.length + 1 ≤ l.length := by
  have := h.length_le
  simpa using this

theorem chordLoop_mono (f1 : ℕ) :
    ∀ (f2 : ℕ) (l : List Char) (size : ℕ), l.length < f1 → l.length < f2 →
      chordLoop f1 l size = chordLoop f2 l size := by
  induction f1 with
  | zero => intro f2 l size h1 _; exact absurd h1 (by omega)
  | succ f ih =>
    intro f2 l size h1 h2
    rcases f2 with _ | g
    · exact absurd h2 (by omega)
    rcases l with _ | ⟨c, l2⟩
    · rw [chordLoop_succ_nil, chordLoop_succ_nil]
    · rw [chordLoop_succ_cons, chordLoop_succ_cons]
      by_cases hgt : c = '>'
      · simp only [if_pos hgt]
      · simp only [if_neg hgt]
        by_cases hsz : 8 ≤ size
        · simp only [if_pos hsz]
        · simp only [if_neg hsz]
          by_cases hno : (parseNoteWithoutDur (c :: l2)).1.noteName = nulChar
          · simp only [if_pos hno]
          · simp only [if_neg hno]
            have hcons := parseNoteWithoutDur_consumes (c :: l2) hno
            have hskip : (skipWs (parseNoteWithoutDur (c :: l2)).2).length ≤
                (parseNoteWithoutDur (c :: l2)).2.length :=
              (List.dropWhile_suffix _).length_le
            have hrec := ih g (skipWs (parseNoteWithoutDur (c :: l2)).2) (size + 1)
              (by simp at hcons h1 ⊢; omega) (by simp at hcons h2 ⊢; omega)
            rw [hrec]

theorem parseMusicRun_mono (f1 : ℕ) :
    ∀ (f2 : ℕ) (l : List Char) (st : RunSt), l.length < f1 → l.length < f2 →
      parseMusicRun f1 l st = parseMusicRun f2 l st := by
  induction f1 with
  | zero => intro f2 l st h1 _; exact absurd h1 (by omega)
  | succ f ih =>
    intro f2 l st h1 h2
    rcases f2 with _ | g
    · exact absurd h2 (by omega)
    rcases hws : skipWs l with _ | ⟨c, l2⟩
    · rw [parseMusicRun_succ_nil f l st hws, parseMusicRun_succ_nil g l st hws]
    · rw [parseMusicRun_succ_cons f l st c l2 hws, parseMusicRun_succ_cons g l st c l2 hws]
      have hsuf : c :: l2 <:+ l := by
        rw [← hws]; exact List.dropWhile_suffix _
      have hlen2 : l2.length + 1 ≤ l.length := suffix_cons_length hsuf
      by_cases hbr : c = '['
      · simp only [if_pos hbr]
        rw [bracketStep, bracketStep]
        have hdlen : (l2.drop ((l2.takeWhile (fun d => d ≠ ']')).take 31).length).length ≤
            l2.length := by
          simp
        by_cases hh : (l2.drop ((l2.takeWhile (fun d => d ≠ ']')).take 31).length).head? =
            some ']'
        · simp only [if_pos hh, if_pos hh]
          have htl : (l2.drop ((l2.takeWhile (fun d => d ≠ ']')).take 31).length).tail.length ≤
              l2.length := by
            have := List.length_tail (l2.drop ((l2.takeWhile (fun d => d ≠ ']')).take 31).length)
            omega
          exact ih g _ _ (by omega) (by omega)
        · simp only [if_neg hh, if_neg hh]
          exact ih g _ _ (by omega) (by omega)
      · simp only [if_neg hbr]
        by_cases hlt : c = '<'
        · simp only [if_pos hlt]
          subst hlt
          rcases hpc : parseChord ('<' :: l2) st.ld with _ | ⟨⟨cns, l3, ld2⟩⟩
          · rfl
          · simp only
            have hcur : l3.length ≤ l2.length := (parseChord_cursor l2 st.ld hpc).length_le
            by_cases hce : cns = []
            · simp only [if_pos hce]
              exact ih g _ _ (by omega) (by omega)
            · simp only [if_neg hce]
              rw [ih g l3 _ (by omega) (by omega)]
        · simp only [if_neg hlt]
          by_cases hno : (parseNote (c :: l2) st.ld).note.noteName = nulChar
          · simp only [if_pos hno]
          · simp only [if_neg hno]
            have hc : isSpaceC c = false := dropWhile_head_not isSpaceC l hws
            have hcur : (parseNote (c :: l2) st.ld).rest.length ≤ l2.length :=
              (parseNote_consumes c l2 st.ld hc hno).length_le
            rw [ih g (parseNote (c :: l2) st.ld).rest _ (by omega) (by omega)]

theorem parseMusicRun_rest_broke (fuel : ℕ) :
    ∀ (l : List Char) (st : RunSt), l.length < fuel →
      ((parseMusicRun fuel l st).broke = false → (parseMusicRun fuel l st).rest = []) ∧
      ((parseMusicRun fuel l st).broke = true → (parseMusicRun fuel l st).rest ≠ []) := by
  induction fuel with
  | zero => intro l st h1; exact absurd h1 (by omega)
  | succ f ih =>
    intro l st h1
    rcases hws : skipWs l with _ | ⟨c, l2⟩
    · rw [parseMusicRun_succ_nil f l st hws]
      exact ⟨fun _ => rfl, fun h => by simp at h⟩
    · rw [parseMusicRun_succ_cons f l st c l2 hws]
      have hsuf : c :: l2 <:+ l := by
        rw [← hws]; exact List.dropWhile_suffix _
      have hlen2 : l2.length + 1 ≤ l.length := suffix_cons_length hsuf
      by_cases hbr : c = '['
      · rw [if_pos hbr]
        simp only
        rw [bracketStep]
        have hdlen : (l2.drop ((l2.takeWhile (fun d => d ≠ ']')).take 31).length).length ≤
            l2.length := by
          simp
        by_cases hh : (l2.drop ((l2.takeWhile (fun d => d ≠ ']')).take 31).length).head? =
            some ']'
        · rw [if_pos hh]
          have htl := List.length_tail (l2.drop ((l2.takeWhile (fun d => d ≠ ']')).take 31).length)
          exact ih _ _ (by omega)
        · rw [if_neg hh]
          exact ih _ _ (by omega)
      · rw [if_neg hbr]
        by_cases hlt : c = '<'
        · rw [if_pos hlt]
          subst hlt
          rcases hpc : parseChord ('<' :: l2) st.ld with _ | ⟨⟨cns, l3, ld2⟩⟩
          · exact ⟨fun h => by simp at h, fun _ => by simp⟩
          · simp only
            have hcur : l3.length ≤ l2.length := (parseChord_cursor l2 st.ld hpc).length_le
            by_cases hce : cns = []
            · rw [if_pos hce]
              exact ih _ _ (by omega)
            · rw [if_neg hce]
              simp only
              exact ih _ _ (by omega)
        · rw [if_neg hlt]
          simp only
          by_cases hno : (parseNote (c :: l2) st.ld).note.noteName = nulChar
          · rw [if_pos hno]
            exact ⟨fun h => by simp at h, fun _ => by simp⟩
          · rw [if_neg hno]
            simp only
            have hc : isSpaceC c = false := dropWhile_head_not isSpaceC l hws
            have hcur : (parseNote (c :: l2) st.ld).rest.length ≤ l2.length :=
              (parseNote_consumes c l2 st.ld hc hno).length_le
            exact ih _ _ (by omega)
theorem takeWhile_nil_of_append {α : Type} (p : α → Bool) (w t : List α)
    (h : (w ++ t).takeWhile p = []) : w.takeWhile p = [] := by
  cases w with
  | nil => rfl
  | cons c w2 =>
    rw [List.cons_append, List.takeWhile_cons] at h
    rw [List.takeWhile_cons]
    by_cases hp : p c = true
    · rw [if_pos hp] at h
      simp at h
    · rw [if_neg hp]

theorem skipWs_append_left_empty (w t : List Char) (h : skipWs w = []) :
    skipWs (w ++ t) = skipWs t := by
  rw [skipWs, List.dropWhile_append]
  rw [skipWs] at h
  rw [if_pos (by rw [h]; rfl)]
  rfl

theorem skipWs_append_left_cons (w t : List Char) (c : Char) (w2 : List Char)
    (h : skipWs w = c :: w2) : skipWs (w ++ t) = c :: (w2 ++ t) := by
  rw [skipWs, List.dropWhile_append]
  rw [skipWs] at h
  rw [if_neg (by rw [h]; simp)]
  rw [h]
  rfl

theorem parseNote_rest_tail (input : List Char) (c : Char) (l2 : List Char) (ld : ℤ)
    (hws : skipWs input = c :: l2)
    (hno : (parseNote input ld).note.noteName ≠ nulChar) :
    (parseNote input ld).rest <:+ l2 := by
  rw [parseNote_cons_eq input c l2 ld hws] at hno ⊢
  by_cases hr : c = 'r'
  · rw [if_pos hr] at hno ⊢
    exact parseNoteDur_suffix _ _ _ _ hno
  · rw [if_neg hr] at hno ⊢
    by_cases hvn : isValidNoteName c = true
    · rw [if_pos hvn] at hno ⊢
      exact (parseNoteDur_suffix _ _ _ _ hno).trans
        ((List.dropWhile_suffix _).trans (List.dropWhile_suffix _))
    · rw [if_neg hvn] at hno
      exact absurd rfl hno

theorem parseNoteWithoutDur_rest_tail (input : List Char) (c : Char) (l2 : List Char)
    (hws : skipWs input = c :: l2)
    (hno : (parseNoteWithoutDur input).1.noteName ≠ nulChar) :
    (parseNoteWithoutDur input).2 <:+ l2 := by
  rw [parseNoteWithoutDur_cons_eq input c l2 hws] at hno ⊢
  by_cases hr : c = 'r'
  · rw [if_pos hr]
  · rw [if_neg hr] at hno ⊢
    by_cases hvn : isValidNoteName c = true
    · rw [if_pos hvn]
      exact (List.dropWhile_suffix _).trans (List.dropWhile_suffix _)
    · rw [if_neg hvn] at hno
      exact absurd rfl hno

theorem parseNoteDur_unappend (orig orig2 : List Char) (ld : ℤ) (n : Note)
    (w t z : List Char)
    (hno : (parseNoteDur orig ld n (w ++ t)).note.noteName ≠ nulChar)
    (hr : (parseNoteDur orig ld n (w ++ t)).rest = z ++ t) :
    parseNoteDur orig2 ld n w =
      ⟨(parseNoteDur orig ld n (w ++ t)).note, z, (parseNoteDur orig ld n (w ++ t)).ld⟩ := by
  by_cases hds : (w ++ t).takeWhile isDigitC = []
  · have hdsw : w.takeWhile isDigitC = [] := takeWhile_nil_of_append _ _ _ hds
    have hbig : parseNoteDur orig ld n (w ++ t) = parseNoteTail ld n (w ++ t) := by
      rw [parseNoteDur, if_pos hds]
    have hsmall : parseNoteDur orig2 ld n w = parseNoteTail ld n w := by
      rw [parseNoteDur, if_pos hdsw]
    rw [hbig] at hr
    rw [hsmall, hbig]
    exact parseNoteTail_unappend ld n w t z hr
  · by_cases hv : isValidDuration (digitVal ((w ++ t).takeWhile isDigitC)) = true
    · obtain ⟨z1, hz1⟩ : t <:+ (w ++ t).dropWhile isDigitC := by
        have hbig0 : parseNoteDur orig ld n (w ++ t) =
            parseNoteTail (digitVal ((w ++ t).takeWhile isDigitC))
              { n with value := i8 (digitVal ((w ++ t).takeWhile isDigitC)) }
              ((w ++ t).dropWhile isDigitC) := by
          rw [parseNoteDur, if_neg hds, if_pos hv]
        rw [hbig0] at hr
        have h1 : z ++ t <:+ (w ++ t).dropWhile isDigitC := by
          rw [← hr]
          exact parseNoteTail_suffix _ _ _
        exact (List.suffix_append z t).trans h1
      have hspan := span_unappend isDigitC w t z1 hz1.symm
      have hbig : parseNoteDur orig ld n (w ++ t) =
          parseNoteTail (digitVal ((w ++ t).takeWhile isDigitC))
            { n with value := i8 (digitVal ((w ++ t).takeWhile isDigitC)) }
            ((w ++ t).dropWhile isDigitC) := by
        rw [parseNoteDur, if_neg hds, if_pos hv]
      have hsmall : parseNoteDur orig2 ld n w =
          parseNoteTail (digitVal ((w ++ t).takeWhile isDigitC))
            { n with value := i8 (digitVal ((w ++ t).takeWhile isDigitC)) }
            (w.dropWhile isDigitC) := by
        rw [parseNoteDur, if_neg (by rw [← hspan.1]; exact hds),
          if_pos (by rw [← hspan.1]; exact hv), hspan.1]
      rw [hbig] at hr
      rw [hsmall, hbig]
      have h2 := parseNoteTail_unappend (digitVal ((w ++ t).takeWhile isDigitC))
        { n with value := i8 (digitVal ((w ++ t).takeWhile isDigitC)) } z1 t z
        (by rw [hz1]; exact hr)
      rw [hspan.2, h2, hz1]
      rfl
    · have hbig : parseNoteDur orig ld n (w ++ t) = ⟨emptyNote, orig, ld⟩ := by
        rw [parseNoteDur, if_neg hds, if_neg hv]
      rw [hbig] at hno
      exact absurd rfl hno

theorem parseNote_unappend (w t z : List Char) (ld : ℤ)
    (hno : (parseNote (w ++ t) ld).note.noteName ≠ nulChar)
    (hr : (parseNote (w ++ t) ld).rest = z ++ t) :
    parseNote w ld =
      ⟨(parseNote (w ++ t) ld).note, z, (parseNote (w ++ t) ld).ld⟩ := by
  rcases hws : skipWs (w ++ t) with _ | ⟨c, l2⟩
  · rw [parseNote_nil_eq _ _ hws] at hno
    exact absurd rfl hno
  · rcases hwsw : skipWs w with _ | ⟨c', w2⟩
    · exfalso
      have hst : skipWs t = c :: l2 := by
        rw [← skipWs_append_left_empty w t hwsw]; exact hws
      have hsct : c :: l2 <:+ t := by
        rw [← hst]; exact List.dropWhile_suffix _
      have hl2t : l2.length + 1 ≤ t.length := suffix_cons_length hsct
      have hrt := (parseNote_rest_tail (w ++ t) c l2 ld hws hno).length_le
      have hc := congrArg List.length hr
      rw [List.length_append] at hc
      omega
    · have hws2 : skipWs (w ++ t) = c' :: (w2 ++ t) :=
        skipWs_append_left_cons w t c' w2 hwsw
      rw [hws] at hws2
      obtain ⟨hc, hl2⟩ : c = c' ∧ l2 = w2 ++ t := by
        cases hws2
        exact ⟨rfl, rfl⟩
      subst hc
      subst hl2
      rw [parseNote_cons_eq (w ++ t) c (w2 ++ t) ld hws] at hno hr ⊢
      rw [parseNote_cons_eq w c w2 ld hwsw]
      by_cases hrch : c = 'r'
      · simp only [if_pos hrch] at hno hr ⊢
        exact parseNoteDur_unappend (w ++ t) w ld _ w2 t z hno hr
      · simp only [if_neg hrch] at hno hr ⊢
        by_cases hvn : isValidNoteName c = true
        · simp only [if_pos hvn] at hno hr ⊢
          obtain ⟨z2, hz2⟩ : t <:+ ((w2 ++ t).dropWhile isAccChar).dropWhile isOctChar := by
            have h1 : z ++ t <:+ ((w2 ++ t).dropWhile isAccChar).dropWhile isOctChar := by
              rw [← hr]
              exact parseNoteDur_suffix _ _ _ _ hno
            exact (List.suffix_append z t).trans h1
          obtain ⟨z1, hz1⟩ : t <:+ (w2 ++ t).dropWhile isAccChar :=
            List.IsSuffix.trans ⟨z2, hz2⟩ (List.dropWhile_suffix _)
          have hacc := span_unappend isAccChar w2 t z1 hz1.symm
          have hoct := span_unappend isOctChar z1 t z2 (by rw [hz1]; exact hz2.symm)
          rw [hacc.2, hoct.2, ← hacc.1,
            show z1.takeWhile isOctChar =
              ((w2 ++ t).dropWhile isAccChar).takeWhile isOctChar from by
                rw [← hoct.1, hz1]]
          rw [← hz2] at hno hr ⊢
          exact parseNoteDur_unappend (w ++ t) w ld _ z2 t z hno hr
        · simp only [if_neg hvn] at hno
          exact absurd rfl hno

theorem parseNoteWithoutDur_unappend (w t z : List Char)
    (hno : (parseNoteWithoutDur (w ++ t)).1.noteName ≠ nulChar)
    (hr : (parseNoteWithoutDur (w ++ t)).2 = z ++ t) :
    parseNoteWithoutDur w = ((parseNoteWithoutDur (w ++ t)).1, z) := by
  rcases hws : skipWs (w ++ t) with _ | ⟨c, l2⟩
  · rw [parseNoteWithoutDur_nil_eq _ hws] at hno
    exact absurd rfl hno
  · rcases hwsw : skipWs w with _ | ⟨c', w2⟩
    · exfalso
      have hst : skipWs t = c :: l2 := by
        rw [← skipWs_append_left_empty w t hwsw]; exact hws
      have hsct : c :: l2 <:+ t := by
        rw [← hst]; exact List.dropWhile_suffix _
      have hl2t : l2.length + 1 ≤ t.length := suffix_cons_length hsct
      have hrt := (parseNoteWithoutDur_rest_tail (w ++ t) c l2 hws hno).length_le
      have hc := congrArg List.length hr
      rw [List.length_append] at hc
      omega
    · have hws2 : skipWs (w ++ t) = c' :: (w2 ++ t) :=
        skipWs_append_left_cons w t c' w2 hwsw
      rw [hws] at hws2
      obtain ⟨hc, hl2⟩ : c = c' ∧ l2 = w2 ++ t := by
        cases hws2
        exact ⟨rfl, rfl⟩
      subst hc
      subst hl2
      rw [parseNoteWithoutDur_cons_eq (w ++ t) c (w2 ++ t) hws] at hno hr ⊢
      rw [parseNoteWithoutDur_cons_eq w c w2 hwsw]
      by_cases hrch : c = 'r'
      · simp only [if_pos hrch] at hno hr ⊢
        have hz : w2 = z := List.append_cancel_right hr
        rw [hz]
      · simp only [if_neg hrch] at hno hr ⊢
        by_cases hvn : isValidNoteName c = true
        · simp only [if_pos hvn] at hno hr ⊢
          obtain ⟨z1, hz1⟩ : t <:+ (w2 ++ t).dropWhile isAccChar :=
            List.IsSuffix.trans (hr ▸ List.suffix_append z t) (List.dropWhile_suffix _)
          have hacc := span_unappend isAccChar w2 t z1 hz1.symm
          have hoct := span_unappend isOctChar z1 t z (by rw [hz1]; exact hr)
          rw [hacc.2, hoct.2, ← hacc.1,
            show z1.takeWhile isOctChar =
              ((w2 ++ t).dropWhile isAccChar).takeWhile isOctChar from by
                rw [← hoct.1, hz1]]
        · simp only [if_neg hvn] at hno
          exact absurd rfl hno

theorem parseDurationMods_unappend (w t z : List Char) (ld : ℤ)
    (hr : (parseDurationMods (w ++ t) ld).rest = z ++ t) :
    parseDurationMods w ld =
      ⟨(parseDurationMods (w ++ t) ld).value, (parseDurationMods (w ++ t) ld).dotted,
       (parseDurationMods (w ++ t) ld).tuplet, z, (parseDurationMods (w ++ t) ld).ld⟩ := by
  obtain ⟨z1, hz1⟩ : t <:+ (w ++ t).dropWhile isDigitC := by
    have h1 : z ++ t <:+ (w ++ t).dropWhile isDigitC := by
      rw [← hr]
      exact ((scanTuplet_suffix _).trans (scanDot_suffix _) : _ <:+ (w ++ t).dropWhile isDigitC)
    exact (List.suffix_append z t).trans h1
  have hspan := span_unappend isDigitC w t z1 hz1.symm
  rcases hsd : scanDot ((w ++ t).dropWhile isDigitC) with ⟨b, r1⟩
  rcases hst : scanTuplet r1 with ⟨v, r2⟩
  have hbig : parseDurationMods (w ++ t) ld =
      ⟨(if (w ++ t).takeWhile isDigitC = [] then ((ld : ℤ), (ld : ℤ))
        else if isValidDuration (digitVal ((w ++ t).takeWhile isDigitC)) then
          (digitVal ((w ++ t).takeWhile isDigitC), digitVal ((w ++ t).takeWhile isDigitC))
        else (ld, ld)).1, b, v, r2,
       (if (w ++ t).takeWhile isDigitC = [] then ((ld : ℤ), (ld : ℤ))
        else if isValidDuration (digitVal ((w ++ t).takeWhile isDigitC)) then
          (digitVal ((w ++ t).takeWhile isDigitC), digitVal ((w ++ t).takeWhile isDigitC))
        else (ld, ld)).2⟩ := by
    rw [parseDurationMods]
    simp only
    rw [hsd]
    simp only
    rw [hst]
  have hr2 : r2 = z ++ t := by
    rw [hbig] at hr
    exact hr
  obtain ⟨z2, hz2⟩ : t <:+ r1 := by
    have hsu : r2 <:+ r1 := by
      have := scanTuplet_suffix r1
      rw [hst] at this
      exact this
    exact (List.suffix_append z t).trans (hr2 ▸ hsu)
  have hd := scanDot_unappend z1 t z2 b r1 (by rw [hz1]; exact hsd) hz2.symm
  have htp := scanTuplet_unappend z2 t z v r2 (by rw [hz2]; exact hst) hr2
  have hsmall : parseDurationMods w ld =
      ⟨(if w.takeWhile isDigitC = [] then ((ld : ℤ), (ld : ℤ))
        else if isValidDuration (digitVal (w.takeWhile isDigitC)) then
          (digitVal (w.takeWhile isDigitC), digitVal (w.takeWhile isDigitC))
        else (ld, ld)).1, b, v, z,
       (if w.takeWhile isDigitC = [] then ((ld : ℤ), (ld : ℤ))
        else if isValidDuration (digitVal (w.takeWhile isDigitC)) then
          (digitVal (w.takeWhile isDigitC), digitVal (w.takeWhile isDigitC))
        else (ld, ld)).2⟩ := by
    rw [parseDurationMods]
    simp only
    rw [hspan.2, hd]
    simp only
    rw [htp]
  rw [hsmall, hbig]
  rw [hspan.1]
theorem validNoteName_ne_nul {c : Char} (h : isValidNoteName c = true) : c ≠ nulChar := by
  intro hc
  subst hc
  exact absurd h (by decide)

theorem stripGt_eq (l : List Char) :
    (match l with | '>' :: l4 => l4 | l4 => l4) =
      if l.head? = some '>' then l.tail else l := by
  split
  · rename_i l4
    simp
  · rename_i hne
    rcases l with _ | ⟨d, l4⟩
    · simp
    · have hd : ¬ d = '>' := by
        intro hd
        exact hne l4 (by rw [hd])
      simp [hd]

theorem stripGt_unappend (z1 t z : List Char)
    (h : (if (z1 ++ t).head? = some '>' then (z1 ++ t).tail else z1 ++ t) = z ++ t) :
    (if z1.head? = some '>' then z1.tail else z1) = z := by
  rcases z1 with _ | ⟨d, z2⟩
  · rw [List.nil_append] at h
    rcases t with _ | ⟨e, t2⟩
    · simpa using h
    · by_cases he : e = '>'
      · exfalso
        rw [if_pos (by rw [List.head?_cons, he])] at h
        have := congrArg List.length h
        rw [List.length_append] at this
        simp at this
        omega
      · rw [if_neg (by rw [List.head?_cons]; simp [he])] at h
        have hz : z = [] := by
          have := congrArg List.length h
          rw [List.length_append] at this
          exact List.length_eq_zero.mp (by omega)
        rw [hz]
        simp
  · simp only [List.cons_append, List.head?_cons] at h
    rw [List.head?_cons]
    by_cases hd : d = '>'
    · rw [if_pos (by rw [hd])] at h
      rw [if_pos (by rw [hd])]
      rw [List.tail_cons] at h
      rw [List.tail_cons]
      exact List.append_cancel_right h
    · rw [if_neg (by simp [hd])] at h
      rw [if_neg (by simp [hd])]
      rw [← List.cons_append] at h
      exact List.append_cancel_right h

theorem parseNoteWithoutDur_fail_unappend (w t z : List Char)
    (hno : (parseNoteWithoutDur (w ++ t)).1.noteName = nulChar)
    (h2 : (parseNoteWithoutDur (w ++ t)).2 = z ++ t) :
    parseNoteWithoutDur w = (emptyNote, z) := by
  rcases hws : skipWs (w ++ t) with _ | ⟨c, l2⟩
  · rw [parseNoteWithoutDur_nil_eq _ hws] at h2
    obtain ⟨hz, htn⟩ := List.append_eq_nil.mp h2.symm
    subst hz
    subst htn
    rw [List.append_nil] at hws
    rw [parseNoteWithoutDur_nil_eq w hws]
  · rw [parseNoteWithoutDur_cons_eq _ c l2 hws] at hno h2
    by_cases hr : c = 'r'
    · rw [if_pos hr] at hno
      have hrn : ('r' : Char) = nulChar := hno
      exact absurd hrn (by decide)
    · rw [if_neg hr] at hno h2
      by_cases hvn : isValidNoteName c = true
      · rw [if_pos hvn] at hno
        exact absurd hno (validNoteName_ne_nul hvn)
      · rw [if_neg hvn] at h2
        have hwz : skipWs (w ++ t) = z ++ t := by rw [hws]; exact h2
        have hwsw : skipWs w = z := skipWs_unappend hwz
        rcases z with _ | ⟨c2, z2⟩
        · rw [parseNoteWithoutDur_nil_eq w hwsw]
        · have hws2 : skipWs (w ++ t) = c2 :: (z2 ++ t) :=
            skipWs_append_left_cons w t c2 z2 hwsw
          rw [hws] at hws2
          obtain ⟨hc, hl2⟩ : c = c2 ∧ l2 = z2 ++ t := by
            cases hws2
            exact ⟨rfl, rfl⟩
          subst hc
          subst hl2
          rw [parseNoteWithoutDur_cons_eq w c z2 hwsw, if_neg hr, if_neg hvn]

theorem chordLoop_unappend (fuel : ℕ) :
    ∀ (w t z : List Char) (ms : List Note) (size : ℕ), t ≠ [] →
      chordLoop fuel (w ++ t) size = (ms, z ++ t) →
      chordLoop fuel w size = (ms, z) := by
  induction fuel with
  | zero =>
    intro w t z ms size ht hbig
    rw [chordLoop] at hbig
    rw [Prod.mk.injEq] at hbig
    rw [chordLoop, ← hbig.1, ← List.append_cancel_right hbig.2]
  | succ f ih =>
    intro w t z ms size ht hbig
    rcases w with _ | ⟨c, w2⟩
    · rcases t with _ | ⟨d, t2⟩
      · exact absurd rfl ht
      rw [List.nil_append, chordLoop_succ_cons] at hbig
      rw [chordLoop_succ_nil]
      by_cases hgt : d = '>'
      · rw [if_pos hgt, Prod.mk.injEq] at hbig
        have hz : z = [] := by
          have hl := congrArg List.length hbig.2
          rw [List.length_append] at hl
          exact List.length_eq_zero.mp (by omega)
        rw [← hbig.1, hz]
      · rw [if_neg hgt] at hbig
        by_cases hsz : 8 ≤ size
        · rw [if_pos hsz, Prod.mk.injEq] at hbig
          have hz : z = [] := by
            have hl := congrArg List.length hbig.2
            rw [List.length_append] at hl
            exact List.length_eq_zero.mp (by omega)
          rw [← hbig.1, hz]
        · rw [if_neg hsz] at hbig
          simp only at hbig
          by_cases hno : (parseNoteWithoutDur (d :: t2)).1.noteName = nulChar
          · rw [if_pos hno, Prod.mk.injEq] at hbig
            have hsu := (parseNoteWithoutDur_suffix (d :: t2)).length_le
            have hz : z = [] := by
              have hl := congrArg List.length hbig.2
              rw [List.length_append] at hl
              simp only [List.length_cons] at hsu hl
              exact List.length_eq_zero.mp (by omega)
            rw [← hbig.1, hz]
          · rw [if_neg hno, Prod.mk.injEq] at hbig
            exfalso
            have hlen1 := parseNoteWithoutDur_consumes (d :: t2) hno
            have hlen2 :=
              (chordLoop_suffix f (skipWs (parseNoteWithoutDur (d :: t2)).2) (size + 1)).length_le
            have hlen3 : (skipWs (parseNoteWithoutDur (d :: t2)).2).length ≤
                (parseNoteWithoutDur (d :: t2)).2.length :=
              (List.dropWhile_suffix isSpaceC).length_le
            have hl := congrArg List.length hbig.2
            rw [List.length_append] at hl
            simp only [List.length_cons] at hlen1 hl
            omega
    · rw [List.cons_append, chordLoop_succ_cons] at hbig
      rw [chordLoop_succ_cons]
      by_cases hgt : c = '>'
      · rw [if_pos hgt] at hbig ⊢
        rw [Prod.mk.injEq] at hbig
        have h2 : (c :: w2) ++ t = z ++ t := by rw [List.cons_append]; exact hbig.2
        rw [← hbig.1, ← List.append_cancel_right h2]
      · rw [if_neg hgt] at hbig ⊢
        by_cases hsz : 8 ≤ size
        · rw [if_pos hsz] at hbig ⊢
          rw [Prod.mk.injEq] at hbig
          have h2 : (c :: w2) ++ t = z ++ t := by rw [List.cons_append]; exact hbig.2
          rw [← hbig.1, ← List.append_cancel_right h2]
        · rw [if_neg hsz] at hbig ⊢
          simp only at hbig ⊢
          by_cases hnoB : (parseNoteWithoutDur (c :: (w2 ++ t))).1.noteName = nulChar
          · rw [if_pos hnoB, Prod.mk.injEq] at hbig
            have hfu : parseNoteWithoutDur (c :: w2) = (emptyNote, z) := by
              have h1 : (parseNoteWithoutDur ((c :: w2) ++ t)).1.noteName = nulChar := by
                rw [List.cons_append]; exact hnoB
              have h2 : (parseNoteWithoutDur ((c :: w2) ++ t)).2 = z ++ t := by
                rw [List.cons_append]; exact hbig.2
              exact parseNoteWithoutDur_fail_unappend (c :: w2) t z h1 h2
            rw [hfu, if_pos (show (emptyNote, z).1.noteName = nulChar from rfl), ← hbig.1]
          · rw [if_neg hnoB, Prod.mk.injEq] at hbig
            obtain ⟨z1, hz1⟩ : t <:+ (parseNoteWithoutDur (c :: (w2 ++ t))).2 := by
              refine (List.suffix_append z t).trans ?_
              rw [← hbig.2]
              exact (chordLoop_suffix f _ _).trans (List.dropWhile_suffix _)
            obtain ⟨z3, hz3⟩ : t <:+ skipWs (parseNoteWithoutDur (c :: (w2 ++ t))).2 := by
              refine (List.suffix_append z t).trans ?_
              rw [← hbig.2]
              exact chordLoop_suffix f _ _
            have hpu : parseNoteWithoutDur (c :: w2) =
                ((parseNoteWithoutDur (c :: (w2 ++ t))).1, z1) := by
              have h1 : (parseNoteWithoutDur ((c :: w2) ++ t)).1.noteName ≠ nulChar := by
                rw [List.cons_append]; exact hnoB
              have h2 : (parseNoteWithoutDur ((c :: w2) ++ t)).2 = z1 ++ t := by
                rw [List.cons_append]; exact hz1.symm
              have h3 := parseNoteWithoutDur_unappend (c :: w2) t z1 h1 h2
              rw [List.cons_append] at h3
              exact h3
            have hsw : skipWs z1 = z3 := skipWs_unappend (by rw [hz1]; exact hz3.symm)
            have hrec : chordLoop f (z3 ++ t) (size + 1) =
                ((chordLoop f (skipWs (parseNoteWithoutDur (c :: (w2 ++ t))).2)
                   (size + 1)).1, z ++ t) := by
              rw [hz3, ← hbig.2]
            have hihs := ih z3 t z
              ((chordLoop f (skipWs (parseNoteWithoutDur (c :: (w2 ++ t))).2) (size + 1)).1)
              (size + 1) ht hrec
            simp only [hpu]
            rw [if_neg hnoB, hsw, hihs, hbig.1]
theorem map_applyDurMods_eq (m m2 : DurMods) (hv : m.value = m2.value)
    (hd : m.dotted = m2.dotted) (htp : m.tuplet = m2.tuplet) (xs : List Note) :
    xs.map (applyDurMods m) = xs.map (applyDurMods m2) := by
  induction xs with
  | nil => rfl
  | cons a l ihx => simp [applyDurMods, hv, hd, htp, ihx]

theorem parseChord_unappend (w2 t z : List Char) (ld : ℤ) (ns : List Note) (ld2 : ℤ)
    (ht : t ≠ [])
    (hbig : parseChord ('<' :: (w2 ++ t)) ld = some (ns, z ++ t, ld2)) :
    parseChord ('<' :: w2) ld = some (ns, z, ld2) := by
  rw [parseChord_lt_eq] at hbig
  rw [parseChord_lt_eq]
  simp only at hbig ⊢
  rw [stripGt_eq] at hbig
  rw [stripGt_eq]
  by_cases hbe : (chordLoop ((w2 ++ t).length + 1) (w2 ++ t) 0).1 = []
  · rw [if_pos hbe] at hbig
    simp only [Option.some.injEq, Prod.mk.injEq] at hbig
    obtain ⟨hns, hl3, hld⟩ := hbig
    obtain ⟨z1, hz1⟩ : t <:+ (chordLoop ((w2 ++ t).length + 1) (w2 ++ t) 0).2 := by
      refine (List.suffix_append z t).trans ?_
      rw [← hl3, ← stripGt_eq]
      exact stripGt_suffix _
    have hstrip : (if ((chordLoop ((w2 ++ t).length + 1) (w2 ++ t) 0).2).head? = some '>'
          then ((chordLoop ((w2 ++ t).length + 1) (w2 ++ t) 0).2).tail
          else (chordLoop ((w2 ++ t).length + 1) (w2 ++ t) 0).2) = z ++ t := hl3
    rw [← hz1] at hstrip
    have hstw : (if z1.head? = some '>' then z1.tail else z1) = z :=
      stripGt_unappend z1 t z hstrip
    have hbpair : chordLoop ((w2 ++ t).length + 1) (w2 ++ t) 0 = ([], z1 ++ t) := by
      rw [hz1, ← hbe]
    have hcu := chordLoop_unappend ((w2 ++ t).length + 1) w2 t z1 [] 0 ht hbpair
    have hmono := chordLoop_mono (w2.length + 1) ((w2 ++ t).length + 1) w2 0
      (by omega) (by rw [List.length_append]; omega)
    rw [hmono, hcu]
    simp only
    rw [if_pos trivial, hstw, ← hns, ← hld]
  · rw [if_neg hbe] at hbig
    simp only [Option.some.injEq, Prod.mk.injEq] at hbig
    obtain ⟨hns, hrest, hld⟩ := hbig
    obtain ⟨z4, hz4⟩ : t <:+ (if ((chordLoop ((w2 ++ t).length + 1) (w2 ++ t) 0).2).head? =
        some '>' then ((chordLoop ((w2 ++ t).length + 1) (w2 ++ t) 0).2).tail
        else (chordLoop ((w2 ++ t).length + 1) (w2 ++ t) 0).2) := by
      refine (List.suffix_append z t).trans ?_
      rw [← hrest]
      exact parseDurationMods_suffix _ _
    obtain ⟨z1, hz1⟩ : t <:+ (chordLoop ((w2 ++ t).length + 1) (w2 ++ t) 0).2 := by
      refine List.IsSuffix.trans ⟨z4, hz4⟩ ?_
      rw [← stripGt_eq]
      exact stripGt_suffix _
    have hstw : (if z1.head? = some '>' then z1.tail else z1) = z4 :=
      stripGt_unappend z1 t z4 (by rw [hz1]; exact hz4.symm)
    have hbpair : chordLoop ((w2 ++ t).length + 1) (w2 ++ t) 0 =
        ((chordLoop ((w2 ++ t).length + 1) (w2 ++ t) 0).1, z1 ++ t) := by
      rw [hz1]
    have hcu := chordLoop_unappend ((w2 ++ t).length + 1) w2 t z1
      ((chordLoop ((w2 ++ t).length + 1) (w2 ++ t) 0).1) 0 ht hbpair
    have hmono := chordLoop_mono (w2.length + 1) ((w2 ++ t).length + 1) w2 0
      (by omega) (by rw [List.length_append]; omega)
    rw [hmono, hcu]
    simp only
    rw [if_neg hbe, hstw]
    have hdm := parseDurationMods_unappend z4 t z ld (by rw [hz4]; exact hrest)
    rw [hdm]
    simp only
    rw [← hz4] at hns hld
    rw [← hns, ← hld]
    simp only [Option.some.injEq, Prod.mk.injEq]
    trivial
theorem bracketNm_eq (w2 t : List Char)
    (hk : (((w2 ++ t).takeWhile (fun d => d ≠ ']')).take 31).length ≤ w2.length) :
    ((w2 ++ t).takeWhile (fun d => d ≠ ']')).take 31 =
      (w2.takeWhile (fun d => d ≠ ']')).take 31 := by
  rw [List.takeWhile_append] at hk ⊢
  by_cases hfull : (w2.takeWhile (fun d => d ≠ ']')).length = w2.length
  · rw [if_pos hfull] at hk ⊢
    have htW : w2.takeWhile (fun d => d ≠ ']') = w2 :=
      (List.takeWhile_prefix _).eq_of_length hfull
    rw [htW]
    rw [List.length_take, List.length_append] at hk
    by_cases h31 : 31 ≤ w2.length
    · rw [List.take_append_eq_append_take, Nat.sub_eq_zero_of_le h31, List.take_zero,
        List.append_nil]
    · have htw : (t.takeWhile (fun d => d ≠ ']')).length = 0 := by omega
      rw [List.length_eq_zero.mp htw, List.append_nil]
  · rw [if_neg hfull]
theorem runres_expand {r : RunRes} {t : List Char} (h2 : r.rest = t) (h3 : r.broke = true) :
    r = ⟨r.notes, t, true⟩ := by
  rw [← h2, ← h3]

theorem run_rest_len (f : ℕ) (l : List Char) (st : RunSt) {t : List Char}
    (h : (parseMusicRun f l st).rest = t) : t.length ≤ l.length := by
  rw [← h]
  exact (parseMusicRun_suffix f l st).length_le

theorem run_rest_suffix_of (f : ℕ) (l : List Char) (st : RunSt) {t : List Char}
    (h : (parseMusicRun f l st).rest = t) : t <:+ l := by
  rw [← h]
  exact parseMusicRun_suffix f l st

theorem parseMusicRun_break_unappend (fuel : ℕ) :
    ∀ (w t : List Char) (st : RunSt) (ns : List Note),
      t ≠ [] → (w ++ t).length < fuel →
      parseMusicRun fuel (w ++ t) st = ⟨ns, t, true⟩ →
      parseMusicRun fuel w st = ⟨ns, [], false⟩ := by
  induction fuel with
  | zero => intro w t st ns ht h1 _; exact absurd h1 (by omega)
  | succ f ih =>
    intro w t st ns ht hfl hbig
    rcases hws : skipWs (w ++ t) with _ | ⟨c, l2⟩
    · rw [parseMusicRun_succ_nil f _ st hws] at hbig
      rw [RunRes.mk.injEq] at hbig
      exact absurd hbig.2.2 (by simp)
    · have hflin : (w ++ t).length ≤ f := by omega
      rw [List.length_append] at hflin
      rcases hwsw : skipWs w with _ | ⟨c', w2⟩
      · -- the whole of w is whitespace: the big run breaks at once on the head of t
        have hst : skipWs t = c :: l2 := by
          rw [← skipWs_append_left_empty w t hwsw]; exact hws
        have hsct : c :: l2 <:+ t := by rw [← hst]; exact List.dropWhile_suffix _
        have hl2t : l2.length + 1 ≤ t.length := suffix_cons_length hsct
        rw [parseMusicRun_succ_cons f _ st c l2 hws] at hbig
        rw [parseMusicRun_succ_nil f w st hwsw]
        by_cases hbr : c = '['
        · exfalso
          rw [if_pos hbr] at hbig
          simp only at hbig
          rw [bracketStep] at hbig
          have hdlen := List.length_drop ((l2.takeWhile (fun d => d ≠ ']')).take 31).length l2
          by_cases hh : (l2.drop ((l2.takeWhile (fun d => d ≠ ']')).take 31).length).head? =
              some ']'
          · rw [if_pos hh] at hbig
            have hr1 := congrArg RunRes.rest hbig
            simp only at hr1
            have hr2 := run_rest_len f _ _ hr1
            have hr3 := List.length_tail (l2.drop ((l2.takeWhile (fun d => d ≠ ']')).take 31).length)
            omega
          · rw [if_neg hh] at hbig
            have hr1 := congrArg RunRes.rest hbig
            simp only at hr1
            have hr2 := run_rest_len f _ _ hr1
            omega
        · rw [if_neg hbr] at hbig
          by_cases hlt : c = '<'
          · rw [if_pos hlt] at hbig
            subst hlt
            rcases hpc : parseChord ('<' :: l2) st.ld with _ | ⟨⟨cns, l3, ld2⟩⟩
            · rw [hpc] at hbig
              cases hbig
              rfl
            · rw [hpc] at hbig
              simp only at hbig
              exfalso
              have hcur : l3.length ≤ l2.length := (parseChord_cursor l2 st.ld hpc).length_le
              by_cases hce : cns = []
              · rw [if_pos hce] at hbig
                have hr1 := congrArg RunRes.rest hbig
                simp only at hr1
                have hr2 := run_rest_len f _ _ hr1
                omega
              · rw [if_neg hce] at hbig
                rw [RunRes.mk.injEq] at hbig
                have hr2 := run_rest_len f _ _ hbig.2.1
                omega
          · rw [if_neg hlt] at hbig
            simp only at hbig
            by_cases hno : (parseNote (c :: l2) st.ld).note.noteName = nulChar
            · rw [if_pos hno] at hbig
              cases hbig
              rfl
            · rw [if_neg hno] at hbig
              exfalso
              have hc : isSpaceC c = false := dropWhile_head_not isSpaceC (w ++ t) hws
              have hcur : (parseNote (c :: l2) st.ld).rest.length ≤ l2.length :=
                (parseNote_consumes c l2 st.ld hc hno).length_le
              rw [RunRes.mk.injEq] at hbig
              have hr2 := run_rest_len f _ _ hbig.2.1
              omega
      · -- w and w ++ t see the same first token
        have hws2 : skipWs (w ++ t) = c' :: (w2 ++ t) :=
          skipWs_append_left_cons w t c' w2 hwsw
        rw [hws] at hws2
        obtain ⟨hc, hl2⟩ : c = c' ∧ l2 = w2 ++ t := by
          cases hws2
          exact ⟨rfl, rfl⟩
        subst hc
        subst hl2
        have hlen2 : w2.length + 1 ≤ w.length := by
          have hsw : c :: w2 <:+ w := by rw [← hwsw]; exact List.dropWhile_suffix _
          exact suffix_cons_length hsw
        rw [parseMusicRun_succ_cons f _ st c (w2 ++ t) hws] at hbig
        rw [parseMusicRun_succ_cons f w st c w2 hwsw]
        by_cases hbr : c = '['
        · simp only [if_pos hbr] at hbig ⊢
          rw [bracketStep] at hbig
          rw [bracketStep]
          have ht3 : t <:+ (w2 ++ t).drop (((w2 ++ t).takeWhile (fun d => d ≠ ']')).take 31).length := by
            by_cases hh : ((w2 ++ t).drop (((w2 ++ t).takeWhile (fun d => d ≠ ']')).take 31).length).head? = some ']'
            · rw [if_pos hh] at hbig
              have hr1 := congrArg RunRes.rest hbig
              simp only at hr1
              exact List.IsSuffix.trans (run_rest_suffix_of f _ _ hr1) (List.tail_suffix _)
            · rw [if_neg hh] at hbig
              have hr1 := congrArg RunRes.rest hbig
              simp only at hr1
              exact run_rest_suffix_of f _ _ hr1
          have hk : (((w2 ++ t).takeWhile (fun d => d ≠ ']')).take 31).length ≤ w2.length := by
            by_contra hk2
            push_neg at hk2
            have hlen := ht3.length_le
            rw [List.length_drop, List.length_append] at hlen
            rcases t with _ | ⟨e, t2⟩
            · exact absurd rfl ht
            simp only [List.length_cons] at hlen
            omega
          have hnm := bracketNm_eq w2 t hk
          have hdrop : (w2 ++ t).drop (((w2 ++ t).takeWhile (fun d => d ≠ ']')).take 31).length =
              w2.drop (((w2 ++ t).takeWhile (fun d => d ≠ ']')).take 31).length ++ t := by
            rw [List.drop_append_eq_append_drop, Nat.sub_eq_zero_of_le hk, List.drop_zero]
          rw [hdrop] at hbig
          rw [← hnm]
          rcases hl3S : w2.drop (((w2 ++ t).takeWhile (fun d => d ≠ ']')).take 31).length
              with _ | ⟨d, l4S⟩
          · rw [hl3S, List.nil_append] at hbig
            by_cases hht : t.head? = some ']'
            · exfalso
              rw [if_pos hht] at hbig
              have hr1 := congrArg RunRes.rest hbig
              simp only at hr1
              have hr2 := run_rest_len f _ _ hr1
              rcases t with _ | ⟨e, t2⟩
              · exact absurd rfl ht
              simp only [List.tail_cons, List.length_cons] at hr2
              omega
            · rw [if_neg hht] at hbig
              rw [if_neg (by simp)]
              have hbig2 : parseMusicRun f ([] ++ t) st = ⟨ns, t, true⟩ := by
                rw [List.nil_append]; exact hbig
              have := ih [] t st ns ht (by simp only [List.nil_append]; omega) hbig2
              simpa using this
          · rw [hl3S] at hbig
            have hl4len : l4S.length + 1 = w2.length -
                (((w2 ++ t).takeWhile (fun d => d ≠ ']')).take 31).length := by
              have := congrArg List.length hl3S
              rw [List.length_drop] at this
              simp only [List.length_cons] at this
              omega
            rw [List.cons_append] at hbig
            by_cases hd : d = ']'
            · rw [if_pos (by rw [List.head?_cons, hd])] at hbig
              rw [if_pos (by rw [List.head?_cons, hd])]
              rw [List.tail_cons] at hbig
              rw [List.tail_cons]
              exact ih l4S t _ ns ht (by rw [List.length_append]; omega) hbig
            · rw [if_neg (by rw [List.head?_cons]; simp [hd])] at hbig
              rw [if_neg (by rw [List.head?_cons]; simp [hd])]
              have hbig2 : parseMusicRun f ((d :: l4S) ++ t) st = ⟨ns, t, true⟩ := by
                rw [List.cons_append]; exact hbig
              exact ih (d :: l4S) t st ns ht
                (by rw [List.length_append]; simp only [List.length_cons]; omega) hbig2
        · simp only [if_neg hbr] at hbig ⊢
          by_cases hlt : c = '<'
          · simp only [if_pos hlt] at hbig ⊢
            subst hlt
            rcases hpc : parseChord ('<' :: (w2 ++ t)) st.ld with _ | ⟨⟨cns, l3, ld2⟩⟩
            · exfalso
              rw [hpc] at hbig
              rw [RunRes.mk.injEq] at hbig
              have := congrArg List.length hbig.2.1
              simp only [List.length_cons, List.length_append] at this
              omega
            · rw [hpc] at hbig
              simp only at hbig
              have hcur : l3.length ≤ (w2 ++ t).length :=
                (parseChord_cursor (w2 ++ t) st.ld hpc).length_le
              rw [List.length_append] at hcur
              by_cases hce : cns = []
              · rw [if_pos hce] at hbig
                obtain ⟨z1, hz1⟩ : t <:+ l3 := by
                  have hr1 := congrArg RunRes.rest hbig
                  simp only at hr1
                  exact run_rest_suffix_of f _ _ hr1
                have hbig2 : parseMusicRun f (z1 ++ t) { st with ld := ld2 } = ⟨ns, t, true⟩ := by
                  rw [hz1]; exact hbig
                have hz1len : z1.length + t.length = l3.length := by
                  have := congrArg List.length hz1
                  rw [List.length_append] at this
                  omega
                have hsm := ih z1 t { st with ld := ld2 } ns ht
                  (by rw [List.length_append]; omega) hbig2
                have hpcS : parseChord ('<' :: w2) st.ld = some (cns, z1, ld2) := by
                  apply parseChord_unappend w2 t z1 st.ld cns ld2 ht
                  rw [hz1]
                  exact hpc
                rcases hpc2 : parseChord ('<' :: w2) st.ld with _ | ⟨⟨cns2, l32, ld22⟩⟩
                · rw [hpc2] at hpcS
                  exact absurd hpcS (by simp)
                · rw [hpc2] at hpcS
                  simp only [Option.some.injEq, Prod.mk.injEq] at hpcS
                  obtain ⟨he1, he2, he3⟩ := hpcS
                  subst he1
                  subst he2
                  subst he3
                  subst hce
                  exact hsm
              · rw [if_neg hce] at hbig
                rw [RunRes.mk.injEq] at hbig
                obtain ⟨hn1, hn2, hn3⟩ := hbig
                obtain ⟨z1, hz1⟩ : t <:+ l3 := run_rest_suffix_of f _ _ hn2
                have hz1len : z1.length + t.length = l3.length := by
                  have := congrArg List.length hz1
                  rw [List.length_append] at this
                  omega
                have hrr : parseMusicRun f l3
                    { st with ld := ld2, chordCounter := st.chordCounter + 1 } =
                    ⟨(parseMusicRun f l3
                      { st with ld := ld2, chordCounter := st.chordCounter + 1 }).notes,
                     t, true⟩ := by
                  rw [← hn2, ← hn3]
                have hbig2 : parseMusicRun f (z1 ++ t)
                    { st with ld := ld2, chordCounter := st.chordCounter + 1 } =
                    ⟨(parseMusicRun f l3
                      { st with ld := ld2, chordCounter := st.chordCounter + 1 }).notes,
                     t, true⟩ := by
                  rw [hz1]; exact hrr
                have hsm := ih z1 t { st with ld := ld2, chordCounter := st.chordCounter + 1 }
                  _ ht (by rw [List.length_append]; omega) hbig2
                have hpcS : parseChord ('<' :: w2) st.ld = some (cns, z1, ld2) := by
                  apply parseChord_unappend w2 t z1 st.ld cns ld2 ht
                  rw [hz1]
                  exact hpc
                rcases hpc2 : parseChord ('<' :: w2) st.ld with _ | ⟨⟨cns2, l32, ld22⟩⟩
                · rw [hpc2] at hpcS
                  exact absurd hpcS (by simp)
                · rw [hpc2] at hpcS
                  simp only [Option.some.injEq, Prod.mk.injEq] at hpcS
                  obtain ⟨he1, he2, he3⟩ := hpcS
                  subst he1
                  subst he2
                  subst he3
                  rcases hc2 : cns2 with _ | ⟨n0, cnr⟩
                  · exact absurd hc2 hce
                  · subst hc2
                    have hfin : (⟨((n0 :: cnr).map fun n =>
                          { n with chordId := i16 st.chordCounter, instrument := st.instr }) ++
                          (parseMusicRun f l32
                            { st with ld := ld22, chordCounter := st.chordCounter + 1 }).notes,
                          (parseMusicRun f l32
                            { st with ld := ld22, chordCounter := st.chordCounter + 1 }).rest,
                          (parseMusicRun f l32
                            { st with ld := ld22, chordCounter := st.chordCounter + 1 }).broke⟩ :
                        RunRes) = ⟨ns, [], false⟩ := by
                      simp only [hsm]
                      rw [RunRes.mk.injEq]
                      exact ⟨hn1, rfl, rfl⟩
                    exact hfin
          · simp only [if_neg hlt] at hbig ⊢
            by_cases hnoB : (parseNote (c :: (w2 ++ t)) st.ld).note.noteName = nulChar
            · exfalso
              rw [if_pos hnoB] at hbig
              rw [RunRes.mk.injEq] at hbig
              have := congrArg List.length hbig.2.1
              simp only [List.length_cons, List.length_append] at this
              omega
            · rw [if_neg hnoB] at hbig
              rw [RunRes.mk.injEq] at hbig
              obtain ⟨hn1, hn2, hn3⟩ := hbig
              obtain ⟨z1, hz1⟩ : t <:+ (parseNote (c :: (w2 ++ t)) st.ld).rest :=
                run_rest_suffix_of f _ _ hn2
              have hc2 : isSpaceC c = false := dropWhile_head_not isSpaceC (w ++ t) hws
              have hcur : (parseNote (c :: (w2 ++ t)) st.ld).rest.length ≤ (w2 ++ t).length :=
                (parseNote_consumes c (w2 ++ t) st.ld hc2 hnoB).length_le
              rw [List.length_append] at hcur
              have hz1len : z1.length + t.length =
                  (parseNote (c :: (w2 ++ t)) st.ld).rest.length := by
                have := congrArg List.length hz1
                rw [List.length_append] at this
                omega
              have hpnS : parseNote (c :: w2) st.ld =
                  ⟨(parseNote (c :: (w2 ++ t)) st.ld).note, z1,
                   (parseNote (c :: (w2 ++ t)) st.ld).ld⟩ := by
                have h1 : (parseNote ((c :: w2) ++ t) st.ld).note.noteName ≠ nulChar := by
                  rw [List.cons_append]; exact hnoB
                have h2 : (parseNote ((c :: w2) ++ t) st.ld).rest = z1 ++ t := by
                  rw [List.cons_append]; exact hz1.symm
                have h3 := parseNote_unappend (c :: w2) t z1 st.ld h1 h2
                rw [List.cons_append] at h3
                exact h3
              have hrr : parseMusicRun f (parseNote (c :: (w2 ++ t)) st.ld).rest
                  { st with ld := (parseNote (c :: (w2 ++ t)) st.ld).ld } =
                  ⟨(parseMusicRun f (parseNote (c :: (w2 ++ t)) st.ld).rest
                    { st with ld := (parseNote (c :: (w2 ++ t)) st.ld).ld }).notes,
                   t, true⟩ := runres_expand hn2 hn3
              have hbig2 : parseMusicRun f (z1 ++ t)
                  { st with ld := (parseNote (c :: (w2 ++ t)) st.ld).ld } =
                  ⟨(parseMusicRun f (parseNote (c :: (w2 ++ t)) st.ld).rest
                    { st with ld := (parseNote (c :: (w2 ++ t)) st.ld).ld }).notes,
                   t, true⟩ := by
                rw [hz1]; exact hrr
              have hsm := ih z1 t
                { st with ld := (parseNote (c :: (w2 ++ t)) st.ld).ld } _ ht
                (by rw [List.length_append]; omega) hbig2
              simp only [hpnS]
              rw [if_neg hnoB]
              rw [hsm, RunRes.mk.injEq]
              exact ⟨hn1, rfl, rfl⟩
/-- C5 amended: `parse_music` never fails a whole input — it stops at the
first unparseable token and keeps the notes already parsed; the result
equals the full parse of the prefix the parser actually consumed, and that
prefix is understood (parses to completion without the failure break), but
it is not necessarily the longest understood prefix. -/
theorem c5_consumed_amended (input : List Char) :
    ∃ pre : List Char,
      pre ++ (parseMusicR input).rest = input ∧
      understood pre = true ∧
      parseMusic pre = parseMusic input := by
  obtain ⟨pre, hpre⟩ : (parseMusicR input).rest <:+ input :=
    parseMusicRun_suffix (input.length + 1) input initRunSt
  have hlen : input.length < input.length + 1 := by omega
  refine ⟨pre, hpre, ?_⟩
  rcases hbk : (parseMusicR input).broke with _ | _
  · have hrest : (parseMusicR input).rest = [] :=
      (parseMusicRun_rest_broke (input.length + 1) input initRunSt hlen).1 hbk
    have hpre2 : pre = input := by
      rw [hrest, List.append_nil] at hpre
      exact hpre
    subst hpre2
    constructor
    · rw [understood, hbk]
      rfl
    · rfl
  · have hrne : (parseMusicR input).rest ≠ [] :=
      (parseMusicRun_rest_broke (input.length + 1) input initRunSt hlen).2 hbk
    have heta : parseMusicR input =
        ⟨(parseMusicR input).notes, (parseMusicR input).rest, true⟩ :=
      runres_expand rfl hbk
    have hbig : parseMusicRun (input.length + 1) (pre ++ (parseMusicR input).rest) initRunSt =
        ⟨(parseMusicR input).notes, (parseMusicR input).rest, true⟩ := by
      rw [hpre]
      exact heta
    have hfl2 : (pre ++ (parseMusicR input).rest).length < input.length + 1 := by
      rw [hpre]
      omega
    have hsm := parseMusicRun_break_unappend (input.length + 1) pre
      (parseMusicR input).rest initRunSt (parseMusicR input).notes hrne hfl2 hbig
    have hprelen : pre.length ≤ input.length := by
      have := congrArg List.length hpre
      rw [List.length_append] at this
      omega
    have hmono := parseMusicRun_mono (pre.length + 1) (input.length + 1) pre initRunSt
      (by omega) (by omega)
    constructor
    · rw [understood, parseMusicR, hmono, hsm]
      rfl
    · show (parseMusicR pre).notes = (parseMusicR input).notes
      rw [parseMusicR, hmono, hsm]

end Music
